import Mathlib

set_option maxRecDepth 40000

/-!
Verification of the AutoScale-Dash chart computation core
(`src/components/notes-dialog.tsx`, `DataChart` component).

Samples are modelled with exact rationals (`ℚ`) in place of JS finite
doubles; `Math.round x` is modelled as `⌊x + 1/2⌋` (round half toward +∞),
which is the JS semantics on finite inputs.  A JS `Map` is modelled as an
association list in insertion order (`Map.set` of a fresh key appends,
`Map.delete` of the first key drops the head), which is exactly the
iteration-order contract of JS maps.
-/

namespace AutoScaleDash

/-- A sample: `{ t: number, kg: number }` (`DataPoint` in the source). -/
structure DataPoint where
  t : ℚ
  kg : ℚ
deriving DecidableEq, Repr

instance : Inhabited DataPoint := ⟨⟨0, 0⟩⟩

/-- JS `Math.round` on a finite number: round half toward `+∞`. -/
def jsRound (x : ℚ) : ℤ := ⌊x + 1/2⌋

/-- `Math.round(x * 10) / 10`: quantization to the 0.1 kg mode-estimation bin,
as written in all three mode estimators of the source. -/
def roundTo01 (x : ℚ) : ℚ := (jsRound (x * 10) : ℚ) / 10

/-- The list of quantized weights of a sample list (the keys fed to `bins`). -/
def quantList (l : List DataPoint) : List ℚ := l.map (fun r => roundTo01 r.kg)

/-- One `bins.set(key, (bins.get(key) ?? 0) + 1)` step on a JS `Map`
modelled as an insertion-ordered association list: an existing key is
updated in place, a fresh key is appended. -/
def binsInsert (bins : List (ℚ × ℕ)) (k : ℚ) : List (ℚ × ℕ) :=
  if bins.any (fun e => e.1 = k) then
    bins.map (fun e => if e.1 = k then (e.1, e.2 + 1) else e)
  else
    bins ++ [(k, 1)]

/-- The `bins` map built by `for (const r of arr) bins.set(round(r.kg*10)/10, …+1)`. -/
def binsOf (arr : List DataPoint) : List (ℚ × ℕ) :=
  arr.foldl (fun b r => binsInsert b (roundTo01 r.kg)) []

/-- One step of the scan over `bins.entries()` used by `modeFor`
(`estimatedWeightKg`) and by `computeModeKgInWindow`:
`if (cnt > bestCount) {…} else if (cnt === bestCount && bestVal !== null && val > bestVal) {…}`. -/
def scanStepLarger (acc : Option ℚ × ℕ) (e : ℚ × ℕ) : Option ℚ × ℕ :=
  match acc with
  | (none, bc) => if bc < e.2 then (some e.1, e.2) else (none, bc)
  | (some bv, bc) =>
      if bc < e.2 then (some e.1, e.2)
      else if e.2 = bc ∧ bv < e.1 then (some e.1, bc)
      else (some bv, bc)

/-- The max-count scan with the tie-break toward the numerically larger key. -/
def scanLarger (entries : List (ℚ × ℕ)) : Option ℚ × ℕ :=
  entries.foldl scanStepLarger (none, 0)

/-- The max-count scan of `groupedRanges`, which has no tie-break branch:
`if (c > bestCount) { best = k; bestCount = c }`. -/
def scanFirst (entries : List (ℚ × ℕ)) : Option ℚ × ℕ :=
  entries.foldl (fun acc e => if acc.2 < e.2 then (some e.1, e.2) else acc) (none, 0)

/-- The `modeFor` helper of `estimatedWeightKg`: 0.1 kg-binned mode with the
larger-value tie-break; returns `(bestVal, bestCount)`. -/
def modeFor (arr : List DataPoint) : Option ℚ × ℕ := scanLarger (binsOf arr)

/-- `estimatedWeightKg` / `estimatedModeCount`: mode of the `kg ≥ 9`-filtered
series, falling back to the unfiltered series when that yields no value. -/
def estimatedWeight (rows : List DataPoint) : Option ℚ × ℕ :=
  if rows.isEmpty then (none, 0)
  else
    let filtered := rows.filter (fun r => 9 ≤ r.kg)
    let res := if filtered.length > 0 then modeFor filtered else (none, 0)
    if res.1 = none then modeFor rows else res

/-- One entry of `groupedRanges`. -/
structure GroupRange where
  startT : ℚ
  endT : ℚ
  startIdx : ℕ
  endIdx : ℕ
  count : ℕ
  modeKg : Option ℚ
deriving DecidableEq, Repr

instance : Inhabited GroupRange := ⟨⟨0, 0, 0, 0, 0, none⟩⟩

/-- `visibleRows.slice(startIdx, endIdx + 1)`. -/
def sliceFor (vis : List DataPoint) (startIdx endIdx : ℕ) : List DataPoint :=
  (vis.drop startIdx).take (endIdx + 1 - startIdx)

/-- `groupedRanges`: partition of the visible rows into at most `GROUP_COUNT = 10`
contiguous groups of size `ceil(n / groups)`, each annotated with its
0.1 kg-binned mode.  The source's `if (startIdx > endIdx) break` is modelled by
`takeWhile (g * size < n)`: since `size ≥ 1`, `startIdx > endIdx` is equivalent
to `g * size ≥ n` and is monotone in `g`, so the first failing `g` breaks. -/
def groupedRanges (vis : List DataPoint) : List GroupRange :=
  let n := vis.length
  if n = 0 then []
  else
    let groups := max 1 (min 10 n)
    let size := (n + groups - 1) / groups
    ((List.range groups).takeWhile (fun g => g * size < n)).map (fun g =>
      let startIdx := g * size
      let endIdx := min (n - 1) ((g + 1) * size - 1)
      let slice := sliceFor vis startIdx endIdx
      { startT := slice.headI.t
        endT := (slice.getLastD default).t
        startIdx := startIdx
        endIdx := endIdx
        count := slice.length
        modeKg := (scanFirst (binsOf slice)).1 })

/-- The stride loop `for (let i = 0; i < l.length; i += step) sampled.push(l[i])`,
i.e. the elements at indices divisible by `step`, in order. -/
def downsampleStride {α : Type} (l : List α) (step : ℕ) : List α :=
  (l.enum.filter (fun ik => ik.1 % step = 0)).map (fun ik => ik.2)

/-- The marker budget shared by both overlay consumers (`MAX_MARKERS`). -/
def MAX_MARKERS : ℕ := 250

/-- The overlay down-sampling rule both consumers implement: return the list
unchanged when it fits the budget, else stride-sample with
`step = ceil(length / MAX_MARKERS)`. -/
def downsampleList {α : Type} (l : List α) : List α :=
  if l.length ≤ MAX_MARKERS then l
  else downsampleStride l ((l.length + (MAX_MARKERS - 1)) / MAX_MARKERS)

/-- The visible X bounds used by `estimatePoints` and `algorithmWindowPointsSet`:
`zoomDomain` if set, else the full series extent; `none` models the
`-Infinity` / `+Infinity` bounds taken when `rows` is empty. -/
def xBounds (rows : List DataPoint) (zd : Option (ℚ × ℚ)) : Option ℚ × Option ℚ :=
  match zd with
  | some d => (some d.1, some d.2)
  | none => (rows.head?.map (fun r => r.t), rows.getLast?.map (fun r => r.t))

/-- `!(r.t < left || r.t > right)` with infinite bounds for `none`. -/
def inXRange (b : Option ℚ × Option ℚ) (t : ℚ) : Bool :=
  (match b.1 with | some l => decide (l ≤ t) | none => true) &&
  (match b.2 with | some r => decide (t ≤ r) | none => true)

/-- The candidate set of `estimatePoints`: visible rows whose quantized weight
equals the target mode bin. -/
def estimateMatches (rows : List DataPoint) (zd : Option (ℚ × ℚ)) (target : ℚ) :
    List DataPoint :=
  rows.filter (fun r => inXRange (xBounds rows zd) r.t && decide (roundTo01 r.kg = target))

/-- `estimatePoints`: mode-bin matches in the visible range, down-sampled to the
marker budget (the down-sampling is written inline in the source). -/
def estimatePoints (rows : List DataPoint) (zd : Option (ℚ × ℚ)) : List DataPoint :=
  match (estimatedWeight rows).1 with
  | none => []
  | some ew =>
    let target := roundTo01 ew
    let ms := estimateMatches rows zd target
    if ms.length ≤ MAX_MARKERS then ms
    else downsampleStride ms ((ms.length + (MAX_MARKERS - 1)) / MAX_MARKERS)

/-- The part of the external `WeightEventResult` record this core reads:
the algorithm window in seconds. -/
structure AlgorithmResult where
  window_start_s : ℚ
  window_end_s : ℚ
deriving DecidableEq, Repr

/-- The candidate set of `algorithmWindowPointsSet`: visible rows inside the
algorithm window (converted from seconds to milliseconds). -/
def algorithmWindowMatches (rows : List DataPoint) (zd : Option (ℚ × ℚ))
    (res : AlgorithmResult) : List DataPoint :=
  let ws := res.window_start_s * 1000
  let we := res.window_end_s * 1000
  rows.filter (fun r => inXRange (xBounds rows zd) r.t && decide (ws ≤ r.t ∧ r.t ≤ we))

/-- `algorithmWindowPointsSet` (as the insertion-ordered list of timestamps
underlying the JS `Set`): algorithm-window matches in the visible range,
down-sampled to the marker budget with the same inline rule. -/
def algorithmWindowPoints (rows : List DataPoint) (zd : Option (ℚ × ℚ))
    (results : Option AlgorithmResult) : List ℚ :=
  match results with
  | none => []
  | some res =>
    let windowPoints := algorithmWindowMatches rows zd res
    if windowPoints.length ≤ MAX_MARKERS then windowPoints.map (fun p => p.t)
    else
      (downsampleStride windowPoints
        ((windowPoints.length + (MAX_MARKERS - 1)) / MAX_MARKERS)).map (fun p => p.t)

/-- The value stored by `computeModeKgInWindow` (`hoverWindow` entries):
window bounds, 0.1 kg-binned mode and in-window sample count. -/
structure WinEstimate where
  left : ℤ
  right : ℤ
  modeKg : Option ℚ
  count : ℕ
deriving DecidableEq, Repr

/-- `modeCache`: a JS `Map<number, WinEstimate>` modelled as an association
list in insertion order (head = oldest-inserted entry). -/
abbrev ModeCache := List (ℤ × WinEstimate)

/-- `modeCache.current.get(k)`. -/
def cacheGet (c : ModeCache) (k : ℤ) : Option WinEstimate :=
  (c.find? (fun e => e.1 = k)).map (fun e => e.2)

def WINDOW_HALF : ℤ := 2500

/-- Cache size bound of `computeModeKgInWindow` (`if (size > 1000) delete first`). -/
def MODE_CACHE_MAX : ℕ := 1000

/-- The samples inside the symmetric window `[roundedT - H, roundedT + H]`. -/
def windowRows (rows : List DataPoint) (roundedT : ℤ) : List DataPoint :=
  rows.filter (fun r =>
    decide (((roundedT - WINDOW_HALF : ℤ) : ℚ) ≤ r.t) &&
    decide (r.t ≤ ((roundedT + WINDOW_HALF : ℤ) : ℚ)))

/-- `computeModeKgInWindow(centerT)`: cached windowed mode estimate keyed by the
rounded center timestamp.  Note that the two early returns (empty store /
empty window) insert into the cache without the size check; only the main
path evicts the oldest entry when the size exceeds `MODE_CACHE_MAX`. -/
def computeModeKgInWindow (rows : List DataPoint) (cache : ModeCache) (centerT : ℚ) :
    WinEstimate × ModeCache :=
  let roundedT := jsRound centerT
  match cacheGet cache roundedT with
  | some cached => (cached, cache)
  | none =>
    let left := roundedT - WINDOW_HALF
    let right := roundedT + WINDOW_HALF
    if rows.isEmpty then
      let result : WinEstimate := ⟨left, right, none, 0⟩
      (result, cache ++ [(roundedT, result)])
    else
      let inRange := windowRows rows roundedT
      if inRange.isEmpty then
        let result : WinEstimate := ⟨left, right, none, 0⟩
        (result, cache ++ [(roundedT, result)])
      else
        let result : WinEstimate :=
          ⟨left, right, (scanLarger (binsOf inRange)).1, inRange.length⟩
        let c1 := cache ++ [(roundedT, result)]
        (result, if MODE_CACHE_MAX < c1.length then c1.tail else c1)

/-- The `while (lo <= hi)` loop of `indexForT`: `inl mid` models the
`return mid` on an exact hit, `inr lo` the fall-through with the final `lo`.
`hi` is an integer because `hi = mid - 1` can reach `-1`. -/
def bsearchAux (rows : List DataPoint) (target : ℚ) (lo hi : ℤ) : ℕ ⊕ ℤ :=
  if _h : lo ≤ hi then
    if (rows.getD ((lo + hi) / 2).toNat default).t = target then
      Sum.inl ((lo + hi) / 2).toNat
    else if (rows.getD ((lo + hi) / 2).toNat default).t < target then
      bsearchAux rows target ((lo + hi) / 2 + 1) hi
    else
      bsearchAux rows target lo ((lo + hi) / 2 - 1)
  else Sum.inr lo
termination_by (hi + 1 - lo).toNat
decreasing_by
  all_goals omega

/-- `indexForT(target)`: binary search, then choose the nearer of the two
samples flanking the insertion point, preferring the earlier index on ties. -/
def indexForT (rows : List DataPoint) (target : ℚ) : ℕ :=
  if rows.isEmpty then 0
  else
    match bsearchAux rows target 0 ((rows.length : ℤ) - 1) with
    | Sum.inl mid => mid
    | Sum.inr lo =>
      let cand := (max 0 (min ((rows.length : ℤ) - 1) lo)).toNat
      if 0 < cand then
        if |(rows.getD (cand - 1) default).t - target| ≤
           |(rows.getD cand default).t - target| then cand - 1
        else cand
      else cand

/-- The reactive state of `DataChart` that the view-state claims concern.
`refAreaLeft`/`refAreaRight` model the `string | number` fields with
`none` for `""`; `brushStartIndex`/`brushEndIndex` are integers because
`handleBrushChange` stores the raw incoming indices and
`rows.length - 1` can be `-1` on an empty store. -/
structure ChartState where
  rows : List DataPoint
  refAreaLeft : Option ℚ
  refAreaRight : Option ℚ
  zoomDomain : Option (ℚ × ℚ)
  yDomain : Option (ℚ × ℚ)
  yAuto : Bool
  brushStartIndex : ℤ
  brushEndIndex : ℤ
  hoverWindow : Option WinEstimate
  hoverT : Option ℚ
  modeCache : ModeCache
deriving DecidableEq, Repr

/-- `visibleRows`: rows whose `t` lies within the zoom domain, or the full
extent when no zoom is set. -/
def visibleRows (rows : List DataPoint) (zd : Option (ℚ × ℚ)) : List DataPoint :=
  match rows with
  | [] => []
  | _ =>
    let left := match zd with | some d => d.1 | none => rows.headI.t
    let right := match zd with | some d => d.2 | none => (rows.getLastD default).t
    rows.filter (fun r => decide (left ≤ r.t) && decide (r.t ≤ right))

/-- `[min(kg) - pad, max(kg) + pad]` with `pad = max(0.5, (max - min) * 0.05)`,
the Y auto-fit formula shared by the Y effect, `handleResetZoom` and
`handleFitToZoom`. -/
def autofit (l : List DataPoint) : Option (ℚ × ℚ) :=
  match (l.map (fun r => r.kg)).min?, (l.map (fun r => r.kg)).max? with
  | some mn, some mx =>
      let pad := max (1/2) ((mx - mn) * (1/20))
      some (mn - pad, mx + pad)
  | _, _ => none

/-- The `useEffect` on `[zoomDomain, rows]`: recompute the brush indices from
the zoom domain via two `indexForT` calls, normalized. -/
def applyZoomEffect (s : ChartState) : ChartState :=
  if s.rows.isEmpty then s
  else
    match s.zoomDomain with
    | none => { s with brushStartIndex := 0, brushEndIndex := (s.rows.length : ℤ) - 1 }
    | some d =>
      let startIdx := indexForT s.rows d.1
      let endIdx := indexForT s.rows d.2
      { s with brushStartIndex := (min startIdx endIdx : ℕ),
               brushEndIndex := (max startIdx endIdx : ℕ) }

/-- The `useEffect` on `[visibleRows, yAuto]`: recompute the Y domain from the
visible rows while auto mode is on. -/
def applyYEffect (s : ChartState) : ChartState :=
  if (visibleRows s.rows s.zoomDomain).isEmpty then s
  else if !s.yAuto then s
  else { s with yDomain := autofit (visibleRows s.rows s.zoomDomain) }

/-- `handleMouseDown`: set the drag anchor to `(t, t)` and show the hover
window at `t`.  `none` models an event without an `activeLabel`. -/
def stepMouseDown (s : ChartState) (label : Option ℚ) : ChartState :=
  match label with
  | none => s
  | some t =>
    let wc := computeModeKgInWindow s.rows s.modeCache t
    { s with refAreaLeft := some t, refAreaRight := some t,
             hoverWindow := some wc.1, hoverT := some t, modeCache := wc.2 }

/-- `handleMouseMove`: extend the anchor's right edge while dragging; always
recompute the hover window at the new label. -/
def stepMouseMove (s : ChartState) (label : Option ℚ) : ChartState :=
  match label with
  | none => s
  | some t =>
    let wc := computeModeKgInWindow s.rows s.modeCache t
    match s.refAreaLeft with
    | some _ =>
      { s with refAreaRight := some t,
               hoverWindow := some wc.1, hoverT := some t, modeCache := wc.2 }
    | none =>
      { s with hoverWindow := some wc.1, hoverT := some t, modeCache := wc.2 }

/-- `handleMouseUp`: commit the zoom for a non-degenerate anchor (then the
zoom/Y effects run), and unconditionally clear the anchor and hover state. -/
def stepMouseUp (s : ChartState) : ChartState :=
  let s1 :=
    match s.refAreaLeft, s.refAreaRight with
    | some l0, some r0 =>
      if l0 ≠ r0 then
        let left := min l0 r0
        let right := max l0 r0
        let startIdx := indexForT s.rows left
        let endIdx := indexForT s.rows right
        applyYEffect (applyZoomEffect
          { s with zoomDomain := some (left, right),
                   brushStartIndex := (min startIdx endIdx : ℕ),
                   brushEndIndex := (max startIdx endIdx : ℕ) })
      else s
    | _, _ => s
  { s1 with refAreaLeft := none, refAreaRight := none,
            hoverWindow := none, hoverT := none }

/-- `onMouseLeave` is wired to the same `handleMouseUp` handler. -/
def stepMouseLeave (s : ChartState) : ChartState := stepMouseUp s

/-- `handleBrushChange`: store the raw indices, derive the zoom domain from
the clamped order-normalized indices, recompute the hover window at the
domain midpoint; the zoom/Y effects then run. -/
def stepBrushChange (s : ChartState) (range : Option (ℤ × ℤ)) : ChartState :=
  if s.rows.isEmpty then s
  else
    match range with
    | none => s
    | some (startIndex, endIndex) =>
      let n := s.rows.length
      let clampedStart := (max 0 (min ((n : ℤ) - 1) startIndex)).toNat
      let clampedEnd := (max 0 (min ((n : ℤ) - 1) endIndex)).toNat
      let left := (s.rows.getD (min clampedStart clampedEnd) default).t
      let right := (s.rows.getD (max clampedStart clampedEnd) default).t
      let center := (left + right) / 2
      let wc := computeModeKgInWindow s.rows s.modeCache center
      applyYEffect (applyZoomEffect
        { s with brushStartIndex := startIndex, brushEndIndex := endIndex,
                 zoomDomain := some (left, right),
                 hoverWindow := some wc.1, modeCache := wc.2 })

/-- `handleResetZoom`: clear the zoom and anchor, re-enable auto Y, reset the
brush to the full extent and recompute the Y domain from the full series.
The zoom/Y effects recompute exactly the values the handler already set. -/
def stepResetZoom (s : ChartState) : ChartState :=
  { s with zoomDomain := none, refAreaLeft := none, refAreaRight := none,
           yAuto := true,
           brushStartIndex := 0, brushEndIndex := (s.rows.length : ℤ) - 1,
           yDomain := if s.rows.isEmpty then none else autofit s.rows }

/-- `handleFitToZoom`: freeze the Y domain at the current visible fit. -/
def stepFitToZoom (s : ChartState) : ChartState :=
  if (visibleRows s.rows s.zoomDomain).isEmpty then s
  else { s with yDomain := autofit (visibleRows s.rows s.zoomDomain), yAuto := false }

/-- The pointer / brush / reset events of the view state machine. -/
inductive ChartEvent where
  | mouseDown (label : Option ℚ)
  | mouseMove (label : Option ℚ)
  | mouseUp
  | mouseLeave
  | brushChange (range : Option (ℤ × ℤ))
  | resetZoom
  | fitToZoom
deriving DecidableEq, Repr

def step (s : ChartState) : ChartEvent → ChartState
  | ChartEvent.mouseDown label => stepMouseDown s label
  | ChartEvent.mouseMove label => stepMouseMove s label
  | ChartEvent.mouseUp => stepMouseUp s
  | ChartEvent.mouseLeave => stepMouseLeave s
  | ChartEvent.brushChange r => stepBrushChange s r
  | ChartEvent.resetZoom => stepResetZoom s
  | ChartEvent.fitToZoom => stepFitToZoom s

def applyEvents (s : ChartState) (evs : List ChartEvent) : ChartState :=
  evs.foldl step s

/-- The state right after a non-empty series is loaded via the `data` prop and
the mount effects have run: cleared transient state, full-extent brush,
auto-fitted Y domain, empty cache. -/
def initState (rows : List DataPoint) : ChartState :=
  applyYEffect (applyZoomEffect
    { rows := rows, refAreaLeft := none, refAreaRight := none,
      zoomDomain := none, yDomain := none, yAuto := true,
      brushStartIndex := 0, brushEndIndex := (rows.length : ℤ) - 1,
      hoverWindow := none, hoverT := none, modeCache := [] })

/-- The spec's `ViewState` record (§3): the view fields of the chart state,
with the drag anchor as a pair. -/
structure ViewState where
  zoomDomain : Option (ℚ × ℚ)
  brushStart : ℤ
  brushEnd : ℤ
  yDomain : Option (ℚ × ℚ)
  yAuto : Bool
  dragAnchor : Option (ℚ × ℚ)
deriving DecidableEq, Repr

def ChartState.view (s : ChartState) : ViewState :=
  { zoomDomain := s.zoomDomain
    brushStart := s.brushStartIndex
    brushEnd := s.brushEndIndex
    yDomain := s.yDomain
    yAuto := s.yAuto
    dragAnchor :=
      match s.refAreaLeft, s.refAreaRight with
      | some l, some r => some (l, r)
      | _, _ => none }

/-! ### The bins map -/
/-- Invariant of the `bins` accumulation: nodup keys, keys are exactly the
seen quantized values, counts are their multiplicities. -/
def BinsRep (b : List (ℚ × ℕ)) (seen : List ℚ) : Prop :=
  (b.map Prod.fst).Nodup ∧
  (∀ k : ℚ, (∃ c, (k, c) ∈ b) ↔ k ∈ seen) ∧
  (∀ k c, (k, c) ∈ b → c = seen.count k)

/-- An 11-sample series whose first partition group holds exactly two samples
with tied quantized weights 10.0 and 10.1. -/
def cexRows : List DataPoint :=
  [⟨0, 10⟩, ⟨1, 101/10⟩, ⟨2, 20⟩, ⟨3, 20⟩, ⟨4, 20⟩, ⟨5, 20⟩, ⟨6, 20⟩,
   ⟨7, 20⟩, ⟨8, 20⟩, ⟨9, 20⟩, ⟨10, 20⟩]

/-- `cexRows` with the two tied samples exchanged (same multiset of quantized
values in the first group). -/
def cexRowsSwapped : List DataPoint :=
  [⟨1, 101/10⟩, ⟨0, 10⟩, ⟨2, 20⟩, ⟨3, 20⟩, ⟨4, 20⟩, ⟨5, 20⟩, ⟨6, 20⟩,
   ⟨7, 20⟩, ⟨8, 20⟩, ⟨9, 20⟩, ⟨10, 20⟩]

/-- A state with the spec scenario's degenerate anchor `(5, 5)`. -/
def degenState : ChartState :=
  { rows := [⟨0, 10⟩, ⟨1, 11⟩], refAreaLeft := some 5, refAreaRight := some 5,
    zoomDomain := none, yDomain := none, yAuto := true,
    brushStartIndex := 0, brushEndIndex := 1,
    hoverWindow := none, hoverT := some 5, modeCache := [] }

/-! ### The windowed estimate cache (C3) -/
/-- A sequence of `estimate(centerT)` calls threading the cache. -/
def estimateFold (rows : List DataPoint) (centers : List ℚ) (c : ModeCache) : ModeCache :=
  centers.foldl (fun cache t => (computeModeKgInWindow rows cache t).2) c

/-- The cache contents after `m` estimate calls at the integer centers
`0, …, m-1` against the empty store. -/
def emptyStoreCache (m : ℕ) : ModeCache :=
  (List.range m).map (fun i =>
    (Int.ofNat i,
     (⟨Int.ofNat i - WINDOW_HALF, Int.ofNat i + WINDOW_HALF, none, 0⟩ : WinEstimate)))

/-! ### Loading samples (C5) -/
/-- A JS number: `some q` is a finite value, `none` a non-finite one
(`NaN` / `±Infinity`), which is what `Number.isFinite` rejects. -/
abbrev JSNum := Option ℚ

def isFiniteJS : JSNum → Bool
  | some _ => true
  | none => false

/-- A raw `{t, kg}` row as received from either input path (values already
coerced to JS numbers). -/
structure RawPoint where
  t : JSNum
  kg : JSNum
deriving DecidableEq, Repr

/-- The comparator `(a, b) => a.t - b.t` on rows whose `t` is finite. -/
def rawLe (a b : RawPoint) : Bool := decide (a.t.getD 0 ≤ b.t.getD 0)

/-- The Supabase `run()` path: drop rows with a non-finite `t` or `kg`, then
sort by `t` ascending (JS `sort` is stable; modelled by `mergeSort`). -/
def loadQuery (res : List RawPoint) : List RawPoint :=
  (res.filter (fun p => isFiniteJS p.t && isFiniteJS p.kg)).mergeSort rawLe

/-- The `data`-prop path (`useEffect` on `[data]`): a non-empty `data` array
is stored verbatim — no filtering, no sorting. -/
def loadDirect (data prev : List RawPoint) : List RawPoint :=
  if data.length > 0 then data else prev

/-! ### Binary search (C4) -/
/-- The timestamp at index `i` (default sample outside the list). -/
def tAt (rows : List DataPoint) (i : ℕ) : ℚ := (rows.getD i default).t

/-- Concrete sorted series for the C4 witness. -/
def searchRows : List DataPoint := [⟨0, 10⟩, ⟨10, 11⟩]

/-! ### Brush change (C7) -/
/-- `Math.max(0, Math.min(rows.length - 1, i))`. -/
def clampIdx (n : ℕ) (i : ℤ) : ℕ := (max 0 (min ((n : ℤ) - 1) i)).toNat

/-- Witness for C7: the spec scenario — brush indices `(2, 0)` on a 5-sample
series normalize to `startIndex = 0`, `endIndex = 2`, with the zoom domain
taken from `samples[0].t` and `samples[2].t`. -/
def fiveRows : List DataPoint :=
  [⟨0, 10⟩, ⟨1, 10⟩, ⟨2, 10⟩, ⟨3, 10⟩, ⟨4, 10⟩]

def fiveState : ChartState := initState fiveRows

-- sanity examples (spec §8 scenario: quantization rounding)
example :
    (modeFor [⟨0, 1004/100⟩, ⟨1, 1006/100⟩, ⟨2, 998/100⟩, ⟨3, 1004/100⟩]).1
      = some 10 := by with_unfolding_all decide

example :
    (modeFor [⟨0, 1004/100⟩, ⟨1, 1006/100⟩, ⟨2, 998/100⟩, ⟨3, 1004/100⟩]).2
      = 3 := by with_unfolding_all decide

-- tie-break toward the larger value in modeFor
example : (modeFor [⟨0, 10⟩, ⟨1, 101/10⟩]).1 = some (101/10) := by with_unfolding_all decide

-- scanFirst keeps the first-encountered max
example : (scanFirst (binsOf [⟨0, 10⟩, ⟨1, 101/10⟩])).1 = some 10 := by with_unfolding_all decide

/-! ### The max-count scans -/
lemma scanLarger_go (entries : List (ℚ × ℕ)) : ∀ (bv : ℚ) (bc : ℕ),
    ∃ v c, entries.foldl scanStepLarger (some bv, bc) = (some v, c) ∧
      ((v, c) = (bv, bc) ∨ (v, c) ∈ entries) ∧
      bc ≤ c ∧ (c = bc → bv ≤ v) ∧
      ∀ e ∈ entries, e.2 ≤ c ∧ (e.2 = c → e.1 ≤ v) := by
  induction entries with
  | nil =>
    intro bv bc
    exact ⟨bv, bc, rfl, Or.inl rfl, le_refl _, fun _ => le_refl _, by simp⟩
  | cons e rest ih =>
    intro bv bc
    by_cases h1 : bc < e.2
    · have hstep : scanStepLarger (some bv, bc) e = (some e.1, e.2) := by
        simp [scanStepLarger, h1]
      obtain ⟨v, c, hfold, hmem, hle, htie, hdom⟩ := ih e.1 e.2
      refine ⟨v, c, by simpa [hstep] using hfold, ?_, ?_, ?_, ?_⟩
      · rcases hmem with h | h
        · exact Or.inr (by simp [Prod.ext_iff] at h; simp [h])
        · exact Or.inr (List.mem_cons_of_mem _ h)
      · omega
      · omega
      · intro e' he'
        rcases List.mem_cons.mp he' with rfl | he'
        · exact ⟨hle, fun hc => htie hc.symm⟩
        · exact hdom e' he'
    · by_cases h2 : e.2 = bc ∧ bv < e.1
      · have hstep : scanStepLarger (some bv, bc) e = (some e.1, bc) := by
          simp [scanStepLarger, h1, h2]
        obtain ⟨v, c, hfold, hmem, hle, htie, hdom⟩ := ih e.1 bc
        refine ⟨v, c, by simpa [hstep] using hfold, ?_, hle, ?_, ?_⟩
        · rcases hmem with h | h
          · have hv : v = e.1 := (Prod.ext_iff.mp h).1
            have hc : c = bc := (Prod.ext_iff.mp h).2
            exact Or.inr (by rw [hv, hc, ← h2.1]; exact List.mem_cons_self _ _)
          · exact Or.inr (List.mem_cons_of_mem _ h)
        · intro hc
          exact le_of_lt (lt_of_lt_of_le h2.2 (htie hc))
        · intro e' he'
          rcases List.mem_cons.mp he' with rfl | he'
          · refine ⟨by omega, fun hc => htie (by omega)⟩
          · exact hdom e' he'
      · have hstep : scanStepLarger (some bv, bc) e = (some bv, bc) := by
          simp [scanStepLarger, h1, h2]
        obtain ⟨v, c, hfold, hmem, hle, htie, hdom⟩ := ih bv bc
        refine ⟨v, c, by simpa [hstep] using hfold, ?_, hle, htie, ?_⟩
        · rcases hmem with h | h
          · exact Or.inl h
          · exact Or.inr (List.mem_cons_of_mem _ h)
        · intro e' he'
          rcases List.mem_cons.mp he' with rfl | he'
          · constructor
            · omega
            · intro hc
              have hcbc : c = bc := by omega
              have he2bc : e'.2 = bc := by omega
              have : ¬ bv < e'.1 := fun hlt => h2 ⟨he2bc, hlt⟩
              exact le_trans (not_lt.mp this) (htie hcbc)
          · exact hdom e' he'

/-- The tie-break-toward-larger scan on a non-empty entry list with positive
counts returns an entry whose count dominates every entry, and which is the
numerically largest key among the entries attaining that count. -/
lemma scanLarger_spec (entries : List (ℚ × ℕ)) (hne : entries ≠ [])
    (hpos : ∀ e ∈ entries, 0 < e.2) :
    ∃ v c, scanLarger entries = (some v, c) ∧ (v, c) ∈ entries ∧
      ∀ e ∈ entries, e.2 ≤ c ∧ (e.2 = c → e.1 ≤ v) := by
  match entries with
  | [] => exact absurd rfl hne
  | e :: rest =>
    have hstep : scanStepLarger (none, 0) e = (some e.1, e.2) := by
      have := hpos e (List.mem_cons_self _ _)
      simp only [scanStepLarger]
      rw [if_pos this]
    obtain ⟨v, c, hfold, hmem, hle, htie, hdom⟩ := scanLarger_go rest e.1 e.2
    refine ⟨v, c, ?_, ?_, ?_⟩
    · simpa [scanLarger, hstep] using hfold
    · rcases hmem with h | h
      · exact (by simp only [Prod.mk.injEq] at h; rw [h.1, h.2]; exact List.mem_cons_self _ _)
      · exact List.mem_cons_of_mem _ h
    · intro e' he'
      rcases List.mem_cons.mp he' with rfl | he'
      · exact ⟨hle, fun hc => htie hc.symm⟩
      · exact hdom e' he'

lemma scanFirst_go (entries : List (ℚ × ℕ)) : ∀ (bv : ℚ) (bc : ℕ),
    ∃ v c,
      entries.foldl (fun acc e => if acc.2 < e.2 then (some e.1, e.2) else acc)
        (some bv, bc) = (some v, c) ∧
      ((v, c) = (bv, bc) ∨ (v, c) ∈ entries) ∧ bc ≤ c ∧ ∀ e ∈ entries, e.2 ≤ c := by
  induction entries with
  | nil =>
    intro bv bc
    exact ⟨bv, bc, rfl, Or.inl rfl, le_refl _, by simp⟩
  | cons e rest ih =>
    intro bv bc
    by_cases h1 : bc < e.2
    · obtain ⟨v, c, hfold, hmem, hle, hdom⟩ := ih e.1 e.2
      refine ⟨v, c, by simpa [h1] using hfold, ?_, by omega, ?_⟩
      · rcases hmem with h | h
        · exact Or.inr (by simp only [Prod.mk.injEq] at h; rw [h.1, h.2]; exact List.mem_cons_self _ _)
        · exact Or.inr (List.mem_cons_of_mem _ h)
      · intro e' he'
        rcases List.mem_cons.mp he' with rfl | he'
        · exact hle
        · exact hdom e' he'
    · obtain ⟨v, c, hfold, hmem, hle, hdom⟩ := ih bv bc
      refine ⟨v, c, by simpa [h1] using hfold, ?_, hle, ?_⟩
      · rcases hmem with h | h
        · exact Or.inl h
        · exact Or.inr (List.mem_cons_of_mem _ h)
      · intro e' he'
        rcases List.mem_cons.mp he' with rfl | he'
        · omega
        · exact hdom e' he'

/-- The first-encountered scan (the `groupedRanges` variant) still returns an
entry attaining the maximum count, but with no tie direction. -/
lemma scanFirst_spec (entries : List (ℚ × ℕ)) (hne : entries ≠ [])
    (hpos : ∀ e ∈ entries, 0 < e.2) :
    ∃ v c, scanFirst entries = (some v, c) ∧ (v, c) ∈ entries ∧
      ∀ e ∈ entries, e.2 ≤ c := by
  match entries with
  | [] => exact absurd rfl hne
  | e :: rest =>
    have h0 : (0 : ℕ) < e.2 := hpos e (List.mem_cons_self _ _)
    obtain ⟨v, c, hfold, hmem, hle, hdom⟩ := scanFirst_go rest e.1 e.2
    refine ⟨v, c, ?_, ?_, ?_⟩
    · simpa [scanFirst, h0] using hfold
    · rcases hmem with h | h
      · exact (by simp only [Prod.mk.injEq] at h; rw [h.1, h.2]; exact List.mem_cons_self _ _)
      · exact List.mem_cons_of_mem _ h
    · intro e' he'
      rcases List.mem_cons.mp he' with rfl | he'
      · exact hle
      · exact hdom e' he'

lemma binsRep_insert {b : List (ℚ × ℕ)} {seen : List ℚ} (h : BinsRep b seen) (k : ℚ) :
    BinsRep (binsInsert b k) (seen ++ [k]) := by
  obtain ⟨hnd, hmem, hcnt⟩ := h
  by_cases hany : ∃ e ∈ b, e.1 = k
  · have hb : binsInsert b k = b.map (fun e => if e.1 = k then (e.1, e.2 + 1) else e) := by
      unfold binsInsert
      rw [if_pos]
      simp only [List.any_eq_true, decide_eq_true_eq]
      exact hany
    have hkseen : k ∈ seen := by
      obtain ⟨e, he, hek⟩ := hany
      exact (hmem k).mp ⟨e.2, hek ▸ he⟩
    have hfst : ∀ e : ℚ × ℕ, (if e.1 = k then (e.1, e.2 + 1) else e).1 = e.1 := by
      intro e; by_cases hek : e.1 = k <;> simp [hek]
    refine ⟨?_, ?_, ?_⟩
    · rw [hb, List.map_map]
      have : (Prod.fst ∘ fun e : ℚ × ℕ => if e.1 = k then (e.1, e.2 + 1) else e)
          = Prod.fst := funext hfst
      rw [this]
      exact hnd
    · intro k'
      rw [hb]
      constructor
      · rintro ⟨c, hc⟩
        obtain ⟨e, he, heq⟩ := List.mem_map.mp hc
        have hk'e : e.1 = k' := by
          have h2 := congrArg Prod.fst heq
          rwa [hfst] at h2
        exact List.mem_append_left _ (hk'e ▸ (hmem e.1).mp ⟨e.2, he⟩)
      · intro hk'
        rcases List.mem_append.mp hk' with hk' | hk'
        · obtain ⟨c, hc⟩ := (hmem k').mpr hk'
          by_cases hek : k' = k
          · exact ⟨c + 1, List.mem_map.mpr ⟨(k', c), hc, by simp [hek]⟩⟩
          · exact ⟨c, List.mem_map.mpr ⟨(k', c), hc, by simp [hek]⟩⟩
        · simp only [List.mem_singleton] at hk'
          subst hk'
          obtain ⟨c, hc⟩ := (hmem k').mpr hkseen
          exact ⟨c + 1, List.mem_map.mpr ⟨(k', c), hc, by simp⟩⟩
    · intro k' c' hc'
      rw [hb] at hc'
      obtain ⟨e, he, heq⟩ := List.mem_map.mp hc'
      by_cases hek : e.1 = k
      · rw [if_pos hek] at heq
        simp only [Prod.mk.injEq] at heq
        obtain ⟨hk1, hc1⟩ := heq
        have hkk' : k' = k := hk1 ▸ hek
        have hke : (k, e.2) ∈ b := by rw [← hek]; exact he
        have hce : e.2 = seen.count k := hcnt k e.2 hke
        subst hkk'
        rw [List.count_append]
        simp
        omega
      · rw [if_neg hek] at heq
        subst heq
        have hk'k : k' ≠ k := hek
        rw [hcnt k' c' he, List.count_append]
        simp [List.count_singleton', hk'k]
  · have hb : binsInsert b k = b ++ [(k, 1)] := by
      unfold binsInsert
      rw [if_neg]
      simp only [List.any_eq_true, decide_eq_true_eq]
      exact hany
    have hknot : k ∉ seen := by
      intro hk
      obtain ⟨c, hc⟩ := (hmem k).mpr hk
      exact hany ⟨(k, c), hc, rfl⟩
    refine ⟨?_, ?_, ?_⟩
    · rw [hb, List.map_append]
      simp only [List.map_cons, List.map_nil]
      rw [List.nodup_append]
      refine ⟨hnd, List.nodup_singleton _, ?_⟩
      intro x hx hx1
      simp only [List.mem_singleton] at hx1
      subst hx1
      obtain ⟨e, he, heq⟩ := List.mem_map.mp hx
      exact hany ⟨e, he, heq⟩
    · intro k'
      rw [hb]
      constructor
      · rintro ⟨c, hc⟩
        rcases List.mem_append.mp hc with hc | hc
        · exact List.mem_append_left _ ((hmem k').mp ⟨c, hc⟩)
        · simp only [List.mem_singleton, Prod.mk.injEq] at hc
          exact List.mem_append_right _ (by simp [hc.1])
      · intro hk'
        rcases List.mem_append.mp hk' with hk' | hk'
        · obtain ⟨c, hc⟩ := (hmem k').mpr hk'
          exact ⟨c, List.mem_append_left _ hc⟩
        · simp only [List.mem_singleton] at hk'
          exact ⟨1, List.mem_append_right _ (by simp [hk'])⟩
    · intro k' c' hc'
      rw [hb] at hc'
      rcases List.mem_append.mp hc' with hc' | hc'
      · have hk : k' ≠ k := fun hkk => hany ⟨(k', c'), hc', hkk⟩
        rw [hcnt k' c' hc', List.count_append]
        simp [List.count_singleton', hk]
      · simp only [List.mem_singleton, Prod.mk.injEq] at hc'
        obtain ⟨hk1, hc1⟩ := hc'
        rw [hc1, hk1, List.count_append]
        have h0 : seen.count k = 0 := by
          by_contra hpos
          exact hknot (List.count_pos_iff.mp (Nat.pos_of_ne_zero hpos))
        simp [h0]

lemma binsRep_fold (l : List DataPoint) : ∀ (b : List (ℚ × ℕ)) (seen : List ℚ),
    BinsRep b seen →
    BinsRep (l.foldl (fun b r => binsInsert b (roundTo01 r.kg)) b) (seen ++ quantList l) := by
  induction l with
  | nil => intro b seen h; simpa [quantList] using h
  | cons r rest ih =>
    intro b seen h
    have h1 := binsRep_insert h (roundTo01 r.kg)
    have h2 := ih (binsInsert b (roundTo01 r.kg)) (seen ++ [roundTo01 r.kg]) h1
    simpa [quantList, List.append_assoc] using h2

lemma binsOf_rep (l : List DataPoint) : BinsRep (binsOf l) (quantList l) := by
  have h0 : BinsRep [] [] := by
    refine ⟨List.nodup_nil, ?_, ?_⟩ <;> simp
  simpa using binsRep_fold l [] [] h0

lemma binsOf_pos (l : List DataPoint) : ∀ e ∈ binsOf l, 0 < e.2 := by
  intro e he
  obtain ⟨_, hmem, hcnt⟩ := binsOf_rep l
  have h1 : e.1 ∈ quantList l := (hmem e.1).mp ⟨e.2, he⟩
  have h2 : e.2 = (quantList l).count e.1 := hcnt e.1 e.2 he
  rw [h2]
  exact List.count_pos_iff.mpr h1

lemma binsOf_ne_nil {l : List DataPoint} (hne : l ≠ []) : binsOf l ≠ [] := by
  obtain ⟨_, hmem, _⟩ := binsOf_rep l
  match l with
  | [] => exact absurd rfl hne
  | r :: rest =>
    have : roundTo01 r.kg ∈ quantList (r :: rest) := by simp [quantList]
    obtain ⟨c, hc⟩ := (hmem _).mpr this
    exact List.ne_nil_of_mem hc

/-- Spec-level characterization of `modeFor` on a non-empty sample list:
it returns the numerically largest quantized value among those attaining the
maximum multiplicity, together with that multiplicity. -/
lemma modeFor_spec (l : List DataPoint) (hne : l ≠ []) :
    ∃ v, (modeFor l).1 = some v ∧ v ∈ quantList l ∧
      (modeFor l).2 = (quantList l).count v ∧
      ∀ k ∈ quantList l, (quantList l).count k ≤ (modeFor l).2 ∧
        ((quantList l).count k = (modeFor l).2 → k ≤ v) := by
  obtain ⟨hnd, hmem, hcnt⟩ := binsOf_rep l
  obtain ⟨v, c, hscan, hvc, hdom⟩ :=
    scanLarger_spec (binsOf l) (binsOf_ne_nil hne) (binsOf_pos l)
  have hrw : modeFor l = (some v, c) := hscan
  refine ⟨v, by rw [hrw], (hmem v).mp ⟨c, hvc⟩, ?_, ?_⟩
  · rw [hrw]
    exact hcnt v c hvc
  · intro k hk
    obtain ⟨ck, hck⟩ := (hmem k).mpr hk
    have hckc : ck = (quantList l).count k := hcnt k ck hck
    have := hdom (k, ck) hck
    rw [hrw]
    exact ⟨hckc ▸ this.1, fun h => this.2 (by rw [hckc, h])⟩

/-- The pair returned by `modeFor` is a function of the multiset of quantized
values only. -/
lemma modeFor_perm {l1 l2 : List DataPoint}
    (h : (quantList l1).Perm (quantList l2)) : modeFor l1 = modeFor l2 := by
  rcases eq_or_ne l1 [] with rfl | h1
  · have : quantList l2 = [] := List.Perm.eq_nil (by simpa [quantList] using h.symm)
    have h2 : l2 = [] := by
      cases l2 with
      | nil => rfl
      | cons r rest => simp [quantList] at this
    rw [h2]
  · have h2 : l2 ≠ [] := by
      intro hl2
      rw [hl2] at h
      have : quantList l1 = [] := List.Perm.eq_nil (by simpa [quantList] using h)
      cases l1 with
      | nil => exact h1 rfl
      | cons r rest => simp [quantList] at this
    obtain ⟨v1, hv1, hv1m, hc1, hdom1⟩ := modeFor_spec l1 h1
    obtain ⟨v2, hv2, hv2m, hc2, hdom2⟩ := modeFor_spec l2 h2
    have hcount : ∀ k : ℚ, (quantList l1).count k = (quantList l2).count k :=
      fun k => h.count_eq k
    have hc12 : (modeFor l1).2 = (modeFor l2).2 := by
      have ha : (modeFor l1).2 ≤ (modeFor l2).2 := by
        have := (hdom2 v1 (h.mem_iff.mp hv1m)).1
        rw [← hcount v1, ← hc1] at this
        exact this
      have hb : (modeFor l2).2 ≤ (modeFor l1).2 := by
        have := (hdom1 v2 (h.mem_iff.mpr hv2m)).1
        rw [hcount v2, ← hc2] at this
        exact this
      omega
    have hv12 : v1 = v2 := by
      have ha : v1 ≤ v2 := by
        refine (hdom2 v1 (h.mem_iff.mp hv1m)).2 ?_
        rw [← hcount v1, ← hc1, hc12]
      have hb : v2 ≤ v1 := by
        refine (hdom1 v2 (h.mem_iff.mpr hv2m)).2 ?_
        rw [hcount v2, ← hc2, hc12]
      exact le_antisymm ha hb
    have e1 : modeFor l1 = (some v1, (modeFor l1).2) := by
      rw [← hv1]
    have e2 : modeFor l2 = (some v2, (modeFor l2).2) := by
      rw [← hv2]
    rw [e1, e2, hv12, hc12]

/-- **C9**: the whole-series estimated weight is `null` iff the series is
empty; on a non-empty series the `kg ≥ 9` pre-filter either yields a mode or
the computation falls back to the unfiltered series, which always has one. -/
theorem estimatedWeight_none_iff (rows : List DataPoint) :
    (estimatedWeight rows).1 = none ↔ rows = [] := by
  constructor
  · intro h
    by_contra hne
    have hE : ¬ rows.isEmpty = true := by simpa using hne
    simp only [estimatedWeight, if_neg hE] at h
    by_cases hfl : (rows.filter (fun r => decide (9 ≤ r.kg))).length > 0
    · have hfne : rows.filter (fun r => decide (9 ≤ r.kg)) ≠ [] := by
        intro h0
        rw [h0] at hfl
        simp at hfl
      obtain ⟨w, hw, -⟩ := modeFor_spec _ hfne
      rw [if_pos hfl, if_neg (by rw [hw]; exact fun h => Option.noConfusion h)] at h
      exact Option.noConfusion (hw.symm.trans h)
    · obtain ⟨w, hw, -⟩ := modeFor_spec rows hne
      rw [if_neg hfl, if_pos rfl] at h
      exact Option.noConfusion (hw.symm.trans h)
  · rintro rfl
    simp [estimatedWeight]

/-- **C1 (amended)**: the binned mode estimator used by the windowed hover
estimate and by the whole-series estimated weight is order-invariant (a
function of the multiset of quantized values) and breaks count ties toward
the numerically larger quantized value; the group partitioner's estimator
instead keeps the first-encountered value among those attaining the maximum
count, which is order-dependent. -/
theorem binnedMode_invariance_and_tieLarger :
    (∀ l1 l2 : List DataPoint, (quantList l1).Perm (quantList l2) →
      modeFor l1 = modeFor l2)
    ∧ (∀ l : List DataPoint, l ≠ [] → ∃ v, (modeFor l).1 = some v ∧
        v ∈ quantList l ∧ (modeFor l).2 = (quantList l).count v ∧
        ∀ k ∈ quantList l, (quantList l).count k ≤ (modeFor l).2 ∧
          ((quantList l).count k = (modeFor l).2 → k ≤ v))
    ∧ (∀ (rows : List DataPoint) (cache : ModeCache) (t : ℚ),
        cacheGet cache (jsRound t) = none → windowRows rows (jsRound t) ≠ [] →
        (computeModeKgInWindow rows cache t).1.modeKg =
          (modeFor (windowRows rows (jsRound t))).1)
    ∧ (∀ rows : List DataPoint, rows ≠ [] →
        estimatedWeight rows =
          if 0 < (rows.filter (fun r => decide (9 ≤ r.kg))).length
          then modeFor (rows.filter (fun r => decide (9 ≤ r.kg)))
          else modeFor rows)
    ∧ (∀ slice : List DataPoint, slice ≠ [] →
        ∃ v c, scanFirst (binsOf slice) = (some v, c) ∧ v ∈ quantList slice ∧
          c = (quantList slice).count v ∧
          ∀ k ∈ quantList slice, (quantList slice).count k ≤ c) := by
  refine ⟨fun l1 l2 h => modeFor_perm h, fun l h => modeFor_spec l h, ?_, ?_, ?_⟩
  · intro rows cache t hmiss hwne
    have hrne : ¬ rows.isEmpty = true := by
      intro h0
      apply hwne
      have : rows = [] := by simpa using h0
      simp [windowRows, this]
    have hwne' : ¬ (windowRows rows (jsRound t)).isEmpty = true := by
      simpa using hwne
    simp only [computeModeKgInWindow, hmiss, if_neg hrne, if_neg hwne']
    rfl
  · intro rows hne
    have hE : ¬ rows.isEmpty = true := by simpa using hne
    simp only [estimatedWeight, if_neg hE]
    by_cases hfl : (rows.filter (fun r => decide (9 ≤ r.kg))).length > 0
    · have hfne : rows.filter (fun r => decide (9 ≤ r.kg)) ≠ [] := by
        intro h0
        rw [h0] at hfl
        simp at hfl
      obtain ⟨w, hw, -⟩ := modeFor_spec _ hfne
      rw [if_pos hfl, if_pos hfl, if_neg (by rw [hw]; exact fun h => Option.noConfusion h)]
    · rw [if_neg hfl, if_neg hfl, if_pos rfl]
  · intro slice hne
    obtain ⟨hnd, hmem, hcnt⟩ := binsOf_rep slice
    obtain ⟨v, c, hscan, hvc, hdom⟩ :=
      scanFirst_spec (binsOf slice) (binsOf_ne_nil hne) (binsOf_pos slice)
    refine ⟨v, c, hscan, (hmem v).mp ⟨c, hvc⟩, hcnt v c hvc, ?_⟩
    intro k hk
    obtain ⟨ck, hck⟩ := (hmem k).mpr hk
    have := hdom (k, ck) hck
    rw [← hcnt k ck hck]
    exact this

/-- **C1 (counterexample)**: the Group Partitioner's per-group mode does not
break ties toward the numerically larger quantized value, and it is not
invariant under reordering: the first group of `cexRows` holds quantized
values 10.0 and 10.1 with count 1 each, yet its mode is 10.0, and exchanging
the two samples changes the mode to 10.1. -/
theorem groupedRanges_tie_not_larger :
    (groupedRanges cexRows).headI.modeKg = some 10 ∧
    (groupedRanges cexRowsSwapped).headI.modeKg = some (101/10) ∧
    (quantList (sliceFor cexRows 0 1)).Perm (quantList (sliceFor cexRowsSwapped 0 1)) ∧
    (101/10 : ℚ) ∈ quantList (sliceFor cexRows 0 1) ∧
    (quantList (sliceFor cexRows 0 1)).count (101/10) =
      (quantList (sliceFor cexRows 0 1)).count 10 := by
  refine ⟨?_, ?_, ?_, ?_, ?_⟩ <;> with_unfolding_all decide

/-- Witness for the amended C1 theorem: order-invariance of `modeFor` fires
on a concrete two-sample reordering. -/
theorem binnedMode_invariance_witness :
    modeFor [⟨0, 10⟩, ⟨1, 101/10⟩] = modeFor [⟨1, 101/10⟩, ⟨0, 10⟩] :=
  binnedMode_invariance_and_tieLarger.1 _ _ (by with_unfolding_all decide)

/-! ### Pointer-up behaviour (C8, C10) -/
/-- **C8**: a pointer-up with a degenerate (`left == right`) or absent drag
anchor changes nothing but the transient anchor and hover fields: zoom
domain, brush range and Y domain are untouched. -/
theorem mouseUp_degenerate (s : ChartState)
    (h : s.refAreaLeft = none ∨ s.refAreaRight = none ∨ s.refAreaLeft = s.refAreaRight) :
    stepMouseUp s =
      { s with refAreaLeft := none, refAreaRight := none,
               hoverWindow := none, hoverT := none } := by
  unfold stepMouseUp
  rcases hl : s.refAreaLeft with _ | l0
  · rfl
  · rcases hr : s.refAreaRight with _ | r0
    · rfl
    · rcases h with h | h | h
      · exact absurd (hl.symm.trans h) (fun hh => Option.noConfusion hh)
      · exact absurd (hr.symm.trans h) (fun hh => Option.noConfusion hh)
      · have : l0 = r0 := by
          have := (hl.symm.trans h).trans hr
          exact Option.some.inj this
        simp [this]

theorem mouseUp_degenerate_witness :
    stepMouseUp degenState =
      { degenState with refAreaLeft := none, refAreaRight := none,
                        hoverWindow := none, hoverT := none } :=
  mouseUp_degenerate degenState (Or.inr (Or.inr rfl))

/-- **C10**: every pointer-up unconditionally clears the drag anchor, the
hover window and the hover timestamp — also when a zoom is committed — and
pointer-leave runs the same handler. -/
theorem mouseUp_always_clears (s : ChartState) :
    (stepMouseUp s).refAreaLeft = none ∧ (stepMouseUp s).refAreaRight = none ∧
    (stepMouseUp s).hoverWindow = none ∧ (stepMouseUp s).hoverT = none ∧
    stepMouseLeave s = stepMouseUp s :=
  ⟨rfl, rfl, rfl, rfl, rfl⟩

/-! ### The overlay down-sampler (C2) -/
lemma countP_range_mod (k : ℕ) (hk : 0 < k) : ∀ n : ℕ,
    (List.range n).countP (fun i => decide (i % k = 0)) = (n + k - 1) / k := by
  intro n
  induction n with
  | zero => simp [Nat.div_eq_of_lt, hk]
  | succ n ih =>
    rw [List.range_succ, List.countP_append, ih]
    have hsucc : n + 1 + k - 1 = (n + k - 1) + 1 := by omega
    rw [hsucc, Nat.succ_div]
    have hdvd : (k ∣ n + k - 1 + 1) ↔ (k ∣ n) := by
      have : n + k - 1 + 1 = n + k := by omega
      rw [this]
      exact Nat.dvd_add_self_right
    by_cases hn : n % k = 0
    · have : k ∣ n := Nat.dvd_of_mod_eq_zero hn
      rw [if_pos (hdvd.mpr this)]
      simp [hn]
    · have : ¬ k ∣ n := fun hd => hn (Nat.eq_zero_of_dvd_of_lt hd |> fun _ => Nat.mod_eq_zero_of_dvd hd)
      rw [if_neg (fun hd => this (hdvd.mp hd))]
      simp [hn]

lemma downsampleStride_length {α : Type} (l : List α) (k : ℕ) (hk : 0 < k) :
    (downsampleStride l k).length = (l.length + k - 1) / k := by
  unfold downsampleStride
  rw [List.length_map, ← List.countP_eq_length_filter]
  have h1 : l.enum.countP (fun ik => decide (ik.1 % k = 0)) =
      (l.enum.map Prod.fst).countP (fun i => decide (i % k = 0)) := by
    rw [List.countP_map]
    rfl
  rw [h1, List.enum_map_fst, countP_range_mod k hk]

lemma downsampleStride_sublist {α : Type} (l : List α) (k : ℕ) :
    (downsampleStride l k).Sublist l := by
  unfold downsampleStride
  have h1 : (l.enum.filter (fun ik => decide (ik.1 % k = 0))).Sublist l.enum :=
    List.filter_sublist _
  have h2 := h1.map Prod.snd
  rw [List.enum_map_snd] at h2
  exact h2

lemma ceil_div_pos_bound (n : ℕ) (hn : MAX_MARKERS < n) :
    0 < (n + (MAX_MARKERS - 1)) / MAX_MARKERS ∧
    n ≤ MAX_MARKERS * ((n + (MAX_MARKERS - 1)) / MAX_MARKERS) := by
  unfold MAX_MARKERS at *
  omega

lemma downsampleList_length_le {α : Type} (l : List α) :
    (downsampleList l).length ≤ MAX_MARKERS := by
  unfold downsampleList
  by_cases h : l.length ≤ MAX_MARKERS
  · rw [if_pos h]
    exact h
  · rw [if_neg h]
    push_neg at h
    obtain ⟨hk, hb⟩ := ceil_div_pos_bound l.length h
    rw [downsampleStride_length l _ hk]
    have h251 : l.length + (l.length + (MAX_MARKERS - 1)) / MAX_MARKERS - 1 <
        (MAX_MARKERS + 1) * ((l.length + (MAX_MARKERS - 1)) / MAX_MARKERS) := by
      have := hb
      unfold MAX_MARKERS at *
      omega
    have := (Nat.div_lt_iff_lt_mul hk).mpr h251
    omega

/-- **C2**: the overlay down-sampler never exceeds the 250-marker budget;
below the budget it is the identity (order preserved); above it, it takes
every `k`-th element from the first with `k = ceil(count / 250)`, which is a
sublist (order preserved); and both consumers — the mode-match overlay and
the algorithm-window overlay — factor through the very same rule. -/
theorem downsampler_budget :
    (∀ (α : Type) (l : List α),
      (downsampleList l).length ≤ MAX_MARKERS
      ∧ (l.length ≤ MAX_MARKERS → downsampleList l = l)
      ∧ (MAX_MARKERS < l.length →
          downsampleList l =
            downsampleStride l ((l.length + (MAX_MARKERS - 1)) / MAX_MARKERS))
      ∧ (downsampleList l).Sublist l)
    ∧ (∀ (rows : List DataPoint) (zd : Option (ℚ × ℚ)),
        estimatePoints rows zd =
          match (estimatedWeight rows).1 with
          | none => []
          | some ew => downsampleList (estimateMatches rows zd (roundTo01 ew)))
    ∧ (∀ (rows : List DataPoint) (zd : Option (ℚ × ℚ)) (res : Option AlgorithmResult),
        algorithmWindowPoints rows zd res =
          match res with
          | none => []
          | some r =>
              (downsampleList (algorithmWindowMatches rows zd r)).map (fun p => p.t)) := by
  refine ⟨?_, ?_, ?_⟩
  · intro α l
    refine ⟨downsampleList_length_le l, ?_, ?_, ?_⟩
    · intro h
      unfold downsampleList
      rw [if_pos h]
    · intro h
      unfold downsampleList
      rw [if_neg (by omega)]
    · unfold downsampleList
      by_cases h : l.length ≤ MAX_MARKERS
      · rw [if_pos h]
      · rw [if_neg h]
        exact downsampleStride_sublist l _
  · intro rows zd
    unfold estimatePoints downsampleList
    match (estimatedWeight rows).1 with
    | none => rfl
    | some ew => rfl
  · intro rows zd res
    match res with
    | none => rfl
    | some r =>
      by_cases h : (algorithmWindowMatches rows zd r).length ≤ MAX_MARKERS
      · simp [algorithmWindowPoints, downsampleList, h]
      · simp [algorithmWindowPoints, downsampleList, h]

/-- Witness for C2 at the spec's scenario sizes: 237 candidates pass through
unchanged; 512 candidates down-sample within the budget. -/
theorem downsampler_budget_witness :
    downsampleList (List.range 237) = List.range 237 ∧
    (downsampleList (List.range 512)).length ≤ MAX_MARKERS :=
  ⟨(downsampler_budget.1 ℕ (List.range 237)).2.1 (by decide),
   (downsampler_budget.1 ℕ (List.range 512)).1⟩

lemma jsRound_intCast (i : ℤ) : jsRound (i : ℚ) = i := by
  unfold jsRound
  rw [add_comm, Int.floor_add_int]
  norm_num

lemma cacheGet_append_self (c : ModeCache) (k : ℤ) (v : WinEstimate)
    (h : cacheGet c k = none) : cacheGet (c ++ [(k, v)]) k = some v := by
  unfold cacheGet at *
  rw [List.find?_append]
  simp only [Option.map_eq_none'] at h  -- h : find? = none
  rw [h]
  simp

lemma cacheGet_tail_none (c : ModeCache) (k : ℤ) (h : cacheGet c k = none) :
    cacheGet c.tail k = none := by
  unfold cacheGet at *
  simp only [Option.map_eq_none', List.find?_eq_none] at h ⊢
  intro e he
  exact h e (List.mem_of_mem_tail he)

/-- On a cache miss with a non-empty window the call appends the new entry
(and possibly drops the head); the cache layout around the new entry. -/
lemma computeModeKgInWindow_miss (rows : List DataPoint) (c : ModeCache) (t : ℚ)
    (hmiss : cacheGet c (jsRound t) = none)
    (hwne : windowRows rows (jsRound t) ≠ []) :
    (computeModeKgInWindow rows c t).2 =
      (if MODE_CACHE_MAX < c.length + 1
       then (c ++ [(jsRound t, (computeModeKgInWindow rows c t).1)]).tail
       else c ++ [(jsRound t, (computeModeKgInWindow rows c t).1)]) := by
  have hrne : ¬ rows.isEmpty = true := by
    intro h0
    apply hwne
    have : rows = [] := by simpa using h0
    simp [windowRows, this]
  have hwne' : ¬ (windowRows rows (jsRound t)).isEmpty = true := by simpa using hwne
  simp only [computeModeKgInWindow, hmiss, if_neg hrne, if_neg hwne', List.length_append,
    List.length_singleton]

lemma jsRound_natCast (n : ℕ) : jsRound ((n : ℕ) : ℚ) = Int.ofNat n := by
  have h : ((n : ℕ) : ℚ) = ((Int.ofNat n : ℤ) : ℚ) := by norm_cast
  rw [h, jsRound_intCast]

/-- **C3 (counterexample helper)**: with an empty sample store every window is
empty, the early return caches the empty estimate without the size check, and
`m` distinct integer centers leave `m` cache entries. -/
lemma estimateFold_empty_store (m : ℕ) :
    estimateFold [] ((List.range m).map (Nat.cast : ℕ → ℚ)) [] = emptyStoreCache m := by
  induction m with
  | zero => rfl
  | succ m ih =>
    unfold estimateFold at ih ⊢
    unfold emptyStoreCache at ih ⊢
    rw [List.range_succ, List.map_append, List.foldl_append, ih, List.map_append]
    simp only [List.map_cons, List.map_nil, List.foldl_cons, List.foldl_nil]
    have hmiss : cacheGet ((List.range m).map (fun i =>
        (Int.ofNat i,
         (⟨Int.ofNat i - WINDOW_HALF, Int.ofNat i + WINDOW_HALF, none, 0⟩ : WinEstimate))))
        (Int.ofNat m) = none := by
      unfold cacheGet
      rw [List.find?_eq_none.mpr]
      · rfl
      · intro e he
        obtain ⟨i, hi, heq⟩ := List.mem_map.mp he
        have hik : e.1 = Int.ofNat i := by rw [← heq]
        have him : i < m := List.mem_range.mp hi
        simp only [hik, decide_eq_true_eq, Int.ofNat_eq_natCast]
        intro hh
        omega
    simp only [Int.ofNat_eq_natCast] at hmiss
    simp [computeModeKgInWindow, hmiss, jsRound_natCast]

/-- **C3 (counterexample)**: after 1001 `estimate` calls at distinct integer
centers against the (fixed) empty sample store, the cache holds 1001 entries —
the 1000-entry bound of the claim is exceeded, because the empty-window early
returns insert without the size check. -/
theorem modeCache_overflow :
    MODE_CACHE_MAX <
      (estimateFold [] ((List.range 1001).map (Nat.cast : ℕ → ℚ)) []).length := by
  rw [estimateFold_empty_store 1001]
  unfold emptyStoreCache MODE_CACHE_MAX
  rw [List.length_map, List.length_range]
  omega

lemma cacheGet_tail_append (c : ModeCache) (k : ℤ) (v : WinEstimate)
    (hmiss : cacheGet c k = none) (hne : c ≠ []) :
    cacheGet ((c ++ [(k, v)]).tail) k = some v := by
  match c with
  | [] => exact absurd rfl hne
  | x :: rest =>
    have hrest : cacheGet rest k = none := cacheGet_tail_none (x :: rest) k hmiss
    show cacheGet (rest ++ [(k, v)]) k = some v
    exact cacheGet_append_self rest k v hrest

/-- Every call leaves the cache with the call's result stored under the
rounded center timestamp. -/
lemma computeModeKgInWindow_cache_after (rows : List DataPoint) (c : ModeCache) (t : ℚ) :
    cacheGet (computeModeKgInWindow rows c t).2 (jsRound t) =
      some (computeModeKgInWindow rows c t).1 := by
  rcases hget : cacheGet c (jsRound t) with _ | cached
  · by_cases hre : rows.isEmpty
    · simp only [computeModeKgInWindow, hget, if_pos hre]
      exact cacheGet_append_self c _ _ hget
    · by_cases hwe : (windowRows rows (jsRound t)).isEmpty
      · simp only [computeModeKgInWindow, hget, if_neg hre, if_pos hwe]
        exact cacheGet_append_self c _ _ hget
      · simp only [computeModeKgInWindow, hget, if_neg hre, if_neg hwe]
        split
        · rename_i hev
          refine cacheGet_tail_append c _ _ hget ?_
          intro h0
          subst h0
          simp only [List.nil_append, List.length_singleton, MODE_CACHE_MAX] at hev
          omega
        · exact cacheGet_append_self c _ _ hget
  · simp only [computeModeKgInWindow, hget]

lemma tail_append_singleton {α : Type} (c : List α) (e : α) (hne : c ≠ []) :
    (c ++ [e]).tail = c.tail ++ [e] := by
  match c with
  | [] => exact absurd rfl hne
  | x :: rest => rfl

/-- One estimate call with a non-empty window keeps the cache within the
size bound. -/
lemma computeModeKgInWindow_length_le (rows : List DataPoint) (c : ModeCache) (t : ℚ)
    (hc : c.length ≤ MODE_CACHE_MAX) (hwne : windowRows rows (jsRound t) ≠ []) :
    (computeModeKgInWindow rows c t).2.length ≤ MODE_CACHE_MAX := by
  rcases hget : cacheGet c (jsRound t) with _ | cached
  · rw [computeModeKgInWindow_miss rows c t hget hwne]
    split
    · rename_i hev
      rw [List.length_tail, List.length_append, List.length_singleton]
      omega
    · rename_i hev
      rw [List.length_append, List.length_singleton]
      omega
  · simp only [computeModeKgInWindow, hget]
    exact hc

/-- Any finite sequence of estimate calls whose windows are all non-empty
keeps the cache within the size bound. -/
lemma estimateFold_length_le (rows : List DataPoint) (centers : List ℚ) :
    ∀ (c : ModeCache), c.length ≤ MODE_CACHE_MAX →
      (∀ t ∈ centers, windowRows rows (jsRound t) ≠ []) →
      (estimateFold rows centers c).length ≤ MODE_CACHE_MAX := by
  induction centers with
  | nil => intro c hc _; exact hc
  | cons t rest ih =>
    intro c hc hw
    have h1 := computeModeKgInWindow_length_le rows c t hc (hw t (List.mem_cons_self _ _))
    exact ih _ h1 (fun t' ht' => hw t' (List.mem_cons_of_mem _ ht'))

/-- On a miss with a non-empty window and a full cache, the evicted entry is
the head — the oldest-inserted entry (FIFO). -/
lemma computeModeKgInWindow_evicts_oldest (rows : List DataPoint) (c : ModeCache) (t : ℚ)
    (hmiss : cacheGet c (jsRound t) = none)
    (hwne : windowRows rows (jsRound t) ≠ [])
    (hfull : MODE_CACHE_MAX ≤ c.length) :
    (computeModeKgInWindow rows c t).2 =
      c.tail ++ [(jsRound t, (computeModeKgInWindow rows c t).1)] := by
  rw [computeModeKgInWindow_miss rows c t hmiss hwne]
  rw [if_pos (by omega)]
  refine tail_append_singleton c _ ?_
  intro h0
  rw [h0, List.length_nil] at hfull
  unfold MODE_CACHE_MAX at hfull
  omega

/-- **C3 (amended)**: each estimate is cached under the rounded (integer)
center timestamp; as long as every queried window contains at least one
sample the cache never exceeds 1000 entries after any sequence of calls, and
on overflow the evicted entry is the oldest-inserted one (the head of the
insertion-ordered map).  The bound does not cover empty-window estimates: the
two early returns insert without the size check (see the counterexample). -/
theorem modeCache_bound_amended :
    (∀ (rows : List DataPoint) (c : ModeCache) (t : ℚ),
        c.length ≤ MODE_CACHE_MAX → windowRows rows (jsRound t) ≠ [] →
        (computeModeKgInWindow rows c t).2.length ≤ MODE_CACHE_MAX)
    ∧ (∀ (rows : List DataPoint) (centers : List ℚ) (c : ModeCache),
        c.length ≤ MODE_CACHE_MAX →
        (∀ t ∈ centers, windowRows rows (jsRound t) ≠ []) →
        (estimateFold rows centers c).length ≤ MODE_CACHE_MAX)
    ∧ (∀ (rows : List DataPoint) (c : ModeCache) (t : ℚ),
        cacheGet c (jsRound t) = none → windowRows rows (jsRound t) ≠ [] →
        MODE_CACHE_MAX ≤ c.length →
        (computeModeKgInWindow rows c t).2 =
          c.tail ++ [(jsRound t, (computeModeKgInWindow rows c t).1)])
    ∧ (∀ (rows : List DataPoint) (c : ModeCache) (t : ℚ),
        cacheGet (computeModeKgInWindow rows c t).2 (jsRound t) =
          some (computeModeKgInWindow rows c t).1) :=
  ⟨computeModeKgInWindow_length_le,
   fun rows centers c hc hw => estimateFold_length_le rows centers c hc hw,
   computeModeKgInWindow_evicts_oldest,
   computeModeKgInWindow_cache_after⟩

/-- Witness for the amended C3 theorem at a concrete store and center. -/
theorem modeCache_bound_witness :
    (computeModeKgInWindow [⟨0, 10⟩] [] 0).2.length ≤ MODE_CACHE_MAX :=
  modeCache_bound_amended.1 [⟨0, 10⟩] [] 0 (by with_unfolding_all decide)
    (by with_unfolding_all decide)

/-- **C5 (counterexample)**: a directly supplied array keeps a row whose `kg`
is non-finite and keeps its unsorted order. -/
theorem loadDirect_unfiltered :
    loadDirect [⟨some 2, none⟩, ⟨some 1, some 1⟩] [] =
      [⟨some 2, none⟩, ⟨some 1, some 1⟩] ∧
    (⟨some 2, none⟩ : RawPoint) ∈ loadDirect [⟨some 2, none⟩, ⟨some 1, some 1⟩] [] ∧
    isFiniteJS (⟨some 2, none⟩ : RawPoint).kg = false ∧
    ¬ (loadDirect [⟨some 2, none⟩, ⟨some 1, some 1⟩] []).Pairwise
        (fun a b => rawLe a b = true) := by
  refine ⟨rfl, ?_, rfl, ?_⟩
  · with_unfolding_all decide
  · with_unfolding_all decide

/-- **C5 (amended)**: the external-query path drops every entry whose `t` or
`kg` is not finite and stores the array sorted by non-decreasing `t`; the
directly supplied `data` array is stored verbatim (assumed pre-normalized). -/
theorem load_paths_amended :
    (∀ res : List RawPoint,
       (∀ p ∈ loadQuery res, isFiniteJS p.t ∧ isFiniteJS p.kg)
       ∧ (loadQuery res).Pairwise (fun a b => rawLe a b = true))
    ∧ (∀ data prev : List RawPoint, data ≠ [] → loadDirect data prev = data) := by
  constructor
  · intro res
    constructor
    · intro p hp
      have hmem : p ∈ res.filter (fun p => isFiniteJS p.t && isFiniteJS p.kg) :=
        (List.mergeSort_perm _ rawLe).mem_iff.mp hp
      have := List.of_mem_filter hmem
      simpa [Bool.and_eq_true] using this
    · refine List.sorted_mergeSort ?_ ?_ _
      · intro a b c hab hbc
        simp only [rawLe, decide_eq_true_eq] at *
        exact le_trans hab hbc
      · intro a b
        simp only [rawLe, Bool.or_eq_true, decide_eq_true_eq]
        exact le_total _ _
  · intro data prev hne
    unfold loadDirect
    rw [if_pos]
    match data with
    | [] => exact absurd rfl hne
    | x :: rest => simp

/-- Witness for the amended C5 theorem: the query path on a concrete mixed
array, and the direct path on a concrete non-empty array. -/
theorem load_paths_witness :
    loadDirect [⟨some 2, none⟩] [] = [⟨some 2, none⟩] :=
  load_paths_amended.2 [⟨some 2, none⟩] [] (by simp)

lemma tAt_mono (rows : List DataPoint) (hsort : rows.Pairwise (fun a b => a.t ≤ b.t))
    {i j : ℕ} (hij : i ≤ j) (hj : j < rows.length) : tAt rows i ≤ tAt rows j := by
  rcases eq_or_lt_of_le hij with rfl | hlt
  · exact le_refl _
  · have hi : i < rows.length := lt_trans hlt hj
    unfold tAt
    rw [List.getD_eq_getElem rows default hi, List.getD_eq_getElem rows default hj]
    exact List.pairwise_iff_get.mp hsort ⟨i, hi⟩ ⟨j, hj⟩ hlt

lemma tAt_strict (rows : List DataPoint) (hstrict : rows.Pairwise (fun a b => a.t < b.t))
    {i j : ℕ} (hij : i < j) (hj : j < rows.length) : tAt rows i < tAt rows j := by
  have hi : i < rows.length := lt_trans hij hj
  unfold tAt
  rw [List.getD_eq_getElem rows default hi, List.getD_eq_getElem rows default hj]
  exact List.pairwise_iff_get.mp hstrict ⟨i, hi⟩ ⟨j, hj⟩ hij

/-- Loop invariant of `bsearchAux`: everything left of `lo` is below the
target and everything right of `hi` is above it; on an exact hit the returned
index holds the target, otherwise the returned `lo` is the insertion point. -/
lemma bsearchAux_spec (rows : List DataPoint) (target : ℚ)
    (hsort : rows.Pairwise (fun a b => a.t ≤ b.t)) (lo hi : ℤ) :
    0 ≤ lo → lo ≤ hi + 1 → hi < (rows.length : ℤ) →
    (∀ j : ℕ, (j : ℤ) < lo → j < rows.length → tAt rows j < target) →
    (∀ j : ℕ, hi < (j : ℤ) → j < rows.length → target < tAt rows j) →
    (match bsearchAux rows target lo hi with
     | Sum.inl mid => mid < rows.length ∧ tAt rows mid = target
     | Sum.inr lo' => lo ≤ lo' ∧ 0 ≤ lo' ∧ lo' ≤ hi + 1 ∧
         (∀ j : ℕ, (j : ℤ) < lo' → j < rows.length → tAt rows j < target) ∧
         (∀ j : ℕ, lo' ≤ (j : ℤ) → j < rows.length → target < tAt rows j)) := by
  induction lo, hi using bsearchAux.induct rows target with
  | case1 lo hi hle heq =>
    intro hlo0 _hlohi hhi _h1 _h2
    rw [bsearchAux, dif_pos hle, if_pos heq]
    refine ⟨by omega, heq⟩
  | case2 lo hi hle hne hlt ih =>
    intro hlo0 _hlohi hhi h1 h2
    rw [bsearchAux, dif_pos hle, if_neg hne, if_pos hlt]
    have hres := ih (by omega) (by omega) hhi ?_ h2
    · rcases hfold : bsearchAux rows target ((lo + hi) / 2 + 1) hi with mid | lo'
      · rw [hfold] at hres
        exact hres
      · rw [hfold] at hres
        obtain ⟨ha, hb, hc, hd, he⟩ := hres
        exact ⟨by omega, hb, hc, hd, he⟩
    · intro j hj hjn
      have hmidn : ((lo + hi) / 2).toNat < rows.length := by omega
      have hjm : j ≤ ((lo + hi) / 2).toNat := by omega
      exact lt_of_le_of_lt (tAt_mono rows hsort hjm hmidn) hlt
  | case3 lo hi hle hne hnlt ih =>
    intro hlo0 _hlohi hhi h1 h2
    rw [bsearchAux, dif_pos hle, if_neg hne, if_neg hnlt]
    have htm : target < tAt rows ((lo + hi) / 2).toNat :=
      lt_of_le_of_ne (not_lt.mp hnlt) (fun h => hne h.symm)
    have hres := ih hlo0 (by omega) (by omega) h1 ?_
    · rcases hfold : bsearchAux rows target lo ((lo + hi) / 2 - 1) with mid | lo'
      · rw [hfold] at hres
        exact hres
      · rw [hfold] at hres
        obtain ⟨ha, hb, hc, hd, he⟩ := hres
        exact ⟨ha, hb, by omega, hd, he⟩
    · intro j hj hjn
      have hmidn : ((lo + hi) / 2).toNat < rows.length := by omega
      have hjm : ((lo + hi) / 2).toNat ≤ j := by omega
      exact lt_of_lt_of_le htm (tAt_mono rows hsort hjm hjn)
  | case4 lo hi hnle =>
    intro hlo0 hlohi hhi h1 h2
    rw [bsearchAux, dif_neg hnle]
    exact ⟨le_refl _, hlo0, hlohi, h1, fun j hj hjn => h2 j (by omega) hjn⟩

lemma abs_sub_of_lt {x t : ℚ} (h : x < t) : |x - t| = t - x := by
  rw [abs_sub_comm]
  exact abs_of_pos (by linarith)

lemma abs_sub_of_gt {x t : ℚ} (h : t < x) : |x - t| = x - t :=
  abs_of_pos (by linarith)

/-- **C4**: `indexForT` returns a valid index whose sample's `t` is no
farther from the target than either neighbouring sample's `t`, and a
(distinct-valued) left neighbour is always strictly farther — i.e. when the
two candidates flanking the insertion point are equidistant, the earlier
index wins. -/
theorem indexForT_nearest (rows : List DataPoint) (target : ℚ)
    (hne : rows ≠ []) (hsort : rows.Pairwise (fun a b => a.t ≤ b.t)) :
    indexForT rows target < rows.length ∧
    (0 < indexForT rows target →
      |tAt rows (indexForT rows target) - target| ≤
        |tAt rows (indexForT rows target - 1) - target|) ∧
    (indexForT rows target + 1 < rows.length →
      |tAt rows (indexForT rows target) - target| ≤
        |tAt rows (indexForT rows target + 1) - target|) ∧
    (0 < indexForT rows target →
      tAt rows (indexForT rows target - 1) ≠ tAt rows (indexForT rows target) →
      |tAt rows (indexForT rows target) - target| <
        |tAt rows (indexForT rows target - 1) - target|) := by
  have hn : 0 < rows.length := List.length_pos.mpr hne
  have hE : ¬ rows.isEmpty = true := by simpa using hne
  have hspec := bsearchAux_spec rows target hsort 0 ((rows.length : ℤ) - 1)
    (le_refl 0) (by omega) (by omega)
    (fun j hj _ => absurd hj (by omega))
    (fun j hj hjn => absurd hjn (by omega))
  rcases hfold : bsearchAux rows target 0 ((rows.length : ℤ) - 1) with mid | lo'
  · rw [hfold] at hspec
    obtain ⟨hmidn, hmidt⟩ := hspec
    have hidx : indexForT rows target = mid := by
      unfold indexForT
      rw [if_neg hE, hfold]
    rw [hidx]
    have h0 : tAt rows mid - target = 0 := by rw [hmidt]; ring
    refine ⟨hmidn, ?_, ?_, ?_⟩
    · intro _
      rw [h0, abs_zero]
      exact abs_nonneg _
    · intro _
      rw [h0, abs_zero]
      exact abs_nonneg _
    · intro _ hdist
      rw [h0, abs_zero, abs_pos, sub_ne_zero]
      exact fun hcon => hdist (hcon.trans hmidt.symm)
  · rw [hfold] at hspec
    obtain ⟨-, hlo0, hup, hinv1, hinv2⟩ := hspec
    set c : ℕ := (max 0 (min ((rows.length : ℤ) - 1) lo')).toNat with hc
    have hcn : c < rows.length := by omega
    have hidx : indexForT rows target =
        (if 0 < c then
          (if |tAt rows (c - 1) - target| ≤ |tAt rows c - target| then c - 1 else c)
        else c) := by
      unfold indexForT
      rw [if_neg hE, hfold]
      rfl
    have hbelow : ∀ j : ℕ, j < c → tAt rows j < target := by
      intro j hj
      exact hinv1 j (by omega) (by omega)
    rw [hidx]
    by_cases hl : lo' ≤ (rows.length : ℤ) - 1
    · -- the insertion point is inside the array: `rows[c].t > target`
      have hcl : (c : ℤ) = lo' := by omega
      have habove : ∀ j : ℕ, c ≤ j → j < rows.length → target < tAt rows j := by
        intro j hj hjn
        exact hinv2 j (by omega) hjn
      have hbt : target < tAt rows c := habove c (le_refl _) hcn
      by_cases hc0 : 0 < c
      · have hat : tAt rows (c - 1) < target := hbelow (c - 1) (by omega)
        rw [if_pos hc0]
        by_cases hcond : |tAt rows (c - 1) - target| ≤ |tAt rows c - target|
        · rw [if_pos hcond]
          refine ⟨by omega, ?_, ?_, ?_⟩
          · intro hc1
            have h2 : tAt rows (c - 1 - 1) ≤ tAt rows (c - 1) :=
              tAt_mono rows hsort (by omega) (by omega)
            have h2t : tAt rows (c - 1 - 1) < target := lt_of_le_of_lt h2 hat
            rw [abs_sub_of_lt hat, abs_sub_of_lt h2t]
            linarith
          · intro _
            rw [show c - 1 + 1 = c from by omega]
            exact hcond
          · intro hc1 hdist
            have h2 : tAt rows (c - 1 - 1) ≤ tAt rows (c - 1) :=
              tAt_mono rows hsort (by omega) (by omega)
            have h2s : tAt rows (c - 1 - 1) < tAt rows (c - 1) :=
              lt_of_le_of_ne h2 hdist
            have h2t : tAt rows (c - 1 - 1) < target := lt_trans h2s hat
            rw [abs_sub_of_lt hat, abs_sub_of_lt h2t]
            linarith
        · rw [if_neg hcond]
          push_neg at hcond
          refine ⟨hcn, ?_, ?_, ?_⟩
          · intro _
            exact le_of_lt hcond
          · intro hc1
            have h2 : tAt rows c ≤ tAt rows (c + 1) :=
              tAt_mono rows hsort (by omega) (by omega)
            have h2t : target < tAt rows (c + 1) := lt_of_lt_of_le hbt h2
            rw [abs_sub_of_gt hbt, abs_sub_of_gt h2t]
            linarith
          · intro _ _
            exact hcond
      · rw [if_neg hc0]
        have hc0' : c = 0 := by omega
        refine ⟨hcn, fun h => absurd h (by omega), ?_, fun h => absurd h (by omega)⟩
        intro h1n
        have h2 : tAt rows c ≤ tAt rows (c + 1) :=
          tAt_mono rows hsort (by omega) (by omega)
        have h2t : target < tAt rows (c + 1) := lt_of_lt_of_le hbt h2
        rw [abs_sub_of_gt hbt, abs_sub_of_gt h2t]
        linarith
    · -- the target is above every sample: `lo' = rows.length`, `c = length - 1`
      have hcl : (c : ℤ) = (rows.length : ℤ) - 1 := by omega
      have hallbelow : ∀ j : ℕ, j < rows.length → tAt rows j < target := by
        intro j hjn
        exact hinv1 j (by omega) hjn
      have hct : tAt rows c < target := hallbelow c hcn
      by_cases hc0 : 0 < c
      · have hat : tAt rows (c - 1) < target := hallbelow (c - 1) (by omega)
        rw [if_pos hc0]
        by_cases hcond : |tAt rows (c - 1) - target| ≤ |tAt rows c - target|
        · rw [if_pos hcond]
          refine ⟨by omega, ?_, ?_, ?_⟩
          · intro hc1
            have h2 : tAt rows (c - 1 - 1) ≤ tAt rows (c - 1) :=
              tAt_mono rows hsort (by omega) (by omega)
            have h2t : tAt rows (c - 1 - 1) < target := lt_of_le_of_lt h2 hat
            rw [abs_sub_of_lt hat, abs_sub_of_lt h2t]
            linarith
          · intro _
            rw [show c - 1 + 1 = c from by omega]
            exact hcond
          · intro hc1 hdist
            have h2 : tAt rows (c - 1 - 1) ≤ tAt rows (c - 1) :=
              tAt_mono rows hsort (by omega) (by omega)
            have h2s : tAt rows (c - 1 - 1) < tAt rows (c - 1) :=
              lt_of_le_of_ne h2 hdist
            have h2t : tAt rows (c - 1 - 1) < target := lt_trans h2s hat
            rw [abs_sub_of_lt hat, abs_sub_of_lt h2t]
            linarith
        · rw [if_neg hcond]
          push_neg at hcond
          refine ⟨hcn, ?_, ?_, ?_⟩
          · intro _
            exact le_of_lt hcond
          · intro hcon
            exact absurd hcon (by omega)
          · intro _ _
            exact hcond
      · rw [if_neg hc0]
        have hc0' : c = 0 := by omega
        have hn1 : rows.length = 1 := by omega
        refine ⟨hcn, fun h => absurd h (by omega), ?_, fun h => absurd h (by omega)⟩
        intro hcon
        exact absurd hcon (by omega)

theorem indexForT_nearest_witness :
    indexForT searchRows 3 < searchRows.length :=
  (indexForT_nearest searchRows 3 (by with_unfolding_all decide)
    (by with_unfolding_all decide)).1

lemma clampIdx_lt (n : ℕ) (i : ℤ) (hn : 0 < n) : clampIdx n i < n := by
  unfold clampIdx
  omega

/-- The zoom-driven brush effect touches only the brush indices. -/
lemma applyZoomEffect_preserves (s : ChartState) :
    (applyZoomEffect s).rows = s.rows ∧ (applyZoomEffect s).refAreaLeft = s.refAreaLeft ∧
    (applyZoomEffect s).refAreaRight = s.refAreaRight ∧
    (applyZoomEffect s).zoomDomain = s.zoomDomain ∧
    (applyZoomEffect s).yDomain = s.yDomain ∧ (applyZoomEffect s).yAuto = s.yAuto ∧
    (applyZoomEffect s).hoverWindow = s.hoverWindow ∧
    (applyZoomEffect s).hoverT = s.hoverT ∧
    (applyZoomEffect s).modeCache = s.modeCache := by
  unfold applyZoomEffect
  split
  · exact ⟨rfl, rfl, rfl, rfl, rfl, rfl, rfl, rfl, rfl⟩
  · split <;> exact ⟨rfl, rfl, rfl, rfl, rfl, rfl, rfl, rfl, rfl⟩

/-- The Y auto-fit effect touches only the Y domain. -/
lemma applyYEffect_preserves (s : ChartState) :
    (applyYEffect s).rows = s.rows ∧ (applyYEffect s).refAreaLeft = s.refAreaLeft ∧
    (applyYEffect s).refAreaRight = s.refAreaRight ∧
    (applyYEffect s).zoomDomain = s.zoomDomain ∧
    (applyYEffect s).brushStartIndex = s.brushStartIndex ∧
    (applyYEffect s).brushEndIndex = s.brushEndIndex ∧
    (applyYEffect s).yAuto = s.yAuto ∧
    (applyYEffect s).hoverWindow = s.hoverWindow ∧
    (applyYEffect s).hoverT = s.hoverT ∧
    (applyYEffect s).modeCache = s.modeCache := by
  unfold applyYEffect
  split
  · exact ⟨rfl, rfl, rfl, rfl, rfl, rfl, rfl, rfl, rfl, rfl⟩
  · split
    · exact ⟨rfl, rfl, rfl, rfl, rfl, rfl, rfl, rfl, rfl, rfl⟩
    · exact ⟨rfl, rfl, rfl, rfl, rfl, rfl, rfl, rfl, rfl, rfl⟩

/-- With a set zoom domain the brush effect recomputes the brush indices via
two `indexForT` calls, normalized. -/
lemma applyZoomEffect_brush_some (s : ChartState) (d : ℚ × ℚ)
    (hz : s.zoomDomain = some d) (hne : ¬ s.rows.isEmpty = true) :
    (applyZoomEffect s).brushStartIndex =
      ((min (indexForT s.rows d.1) (indexForT s.rows d.2) : ℕ) : ℤ) ∧
    (applyZoomEffect s).brushEndIndex =
      ((max (indexForT s.rows d.1) (indexForT s.rows d.2) : ℕ) : ℤ) := by
  simp only [applyZoomEffect, if_neg hne, hz]
  constructor <;> first | rfl | trivial

/-- On a series with strictly increasing timestamps, binary search finds the
exact index of any present timestamp. -/
lemma indexForT_exact (rows : List DataPoint)
    (hstrict : rows.Pairwise (fun a b => a.t < b.t)) (i : ℕ) (hi : i < rows.length) :
    indexForT rows (tAt rows i) = i := by
  have hsort : rows.Pairwise (fun a b => a.t ≤ b.t) :=
    hstrict.imp (fun h => le_of_lt h)
  have hne : rows ≠ [] := by
    intro h
    rw [h] at hi
    simp at hi
  have hE : ¬ rows.isEmpty = true := by simpa using hne
  have hspec := bsearchAux_spec rows (tAt rows i) hsort 0 ((rows.length : ℤ) - 1)
    (le_refl 0) (by omega) (by omega)
    (fun j hj _ => absurd hj (by omega))
    (fun j hj hjn => absurd hjn (by omega))
  rcases hfold : bsearchAux rows (tAt rows i) 0 ((rows.length : ℤ) - 1) with mid | lo'
  · rw [hfold] at hspec
    obtain ⟨hmidn, hmidt⟩ := hspec
    have hmi : mid = i := by
      by_contra hne'
      rcases lt_or_gt_of_ne hne' with hlt | hgt
      · exact absurd hmidt (ne_of_lt (tAt_strict rows hstrict hlt hi))
      · exact absurd hmidt (ne_of_gt (tAt_strict rows hstrict hgt hmidn))
    unfold indexForT
    rw [if_neg hE, hfold]
    exact hmi
  · rw [hfold] at hspec
    obtain ⟨-, -, -, hinv1, hinv2⟩ := hspec
    by_cases hil : (i : ℤ) < lo'
    · exact absurd (hinv1 i hil hi) (lt_irrefl _)
    · exact absurd (hinv2 i (by omega) hi) (lt_irrefl _)

/-- **C7**: `brushChange(startIndex, endIndex)` clamps the indices to
`[0, length-1]`, order-normalizes them, derives the zoom domain from the
samples at the normalized indices (`left` from the smaller, `right` from the
larger), recomputes the hover window at the domain midpoint, and — after the
zoom-driven brush effect — the resulting brush range is exactly the
normalized pair, so `startIndex ≤ endIndex` holds. -/
theorem brushChange_normalizes (s : ChartState) (si ei : ℤ)
    (hne : s.rows ≠ []) (hstrict : s.rows.Pairwise (fun a b => a.t < b.t)) :
    (stepBrushChange s (some (si, ei))).brushStartIndex =
      ((min (clampIdx s.rows.length si) (clampIdx s.rows.length ei) : ℕ) : ℤ) ∧
    (stepBrushChange s (some (si, ei))).brushEndIndex =
      ((max (clampIdx s.rows.length si) (clampIdx s.rows.length ei) : ℕ) : ℤ) ∧
    (stepBrushChange s (some (si, ei))).brushStartIndex ≤
      (stepBrushChange s (some (si, ei))).brushEndIndex ∧
    (stepBrushChange s (some (si, ei))).zoomDomain =
      some (tAt s.rows (min (clampIdx s.rows.length si) (clampIdx s.rows.length ei)),
            tAt s.rows (max (clampIdx s.rows.length si) (clampIdx s.rows.length ei))) ∧
    (stepBrushChange s (some (si, ei))).hoverWindow =
      some (computeModeKgInWindow s.rows s.modeCache
        ((tAt s.rows (min (clampIdx s.rows.length si) (clampIdx s.rows.length ei)) +
          tAt s.rows (max (clampIdx s.rows.length si) (clampIdx s.rows.length ei))) / 2)).1 := by
  have hn : 0 < s.rows.length := List.length_pos.mpr hne
  have hE : ¬ s.rows.isEmpty = true := by simpa using hne
  set lo := min (clampIdx s.rows.length si) (clampIdx s.rows.length ei) with hlo
  set hi := max (clampIdx s.rows.length si) (clampIdx s.rows.length ei) with hhi
  have hlon : lo < s.rows.length :=
    lt_of_le_of_lt (min_le_left _ _) (clampIdx_lt _ _ hn)
  have hhin : hi < s.rows.length := by
    rw [hhi]
    rcases max_choice (clampIdx s.rows.length si) (clampIdx s.rows.length ei) with h | h
    · rw [h]; exact clampIdx_lt _ _ hn
    · rw [h]; exact clampIdx_lt _ _ hn
  set s1 : ChartState :=
    { s with brushStartIndex := si, brushEndIndex := ei,
             zoomDomain := some (tAt s.rows lo, tAt s.rows hi),
             hoverWindow := some (computeModeKgInWindow s.rows s.modeCache
               ((tAt s.rows lo + tAt s.rows hi) / 2)).1,
             modeCache := (computeModeKgInWindow s.rows s.modeCache
               ((tAt s.rows lo + tAt s.rows hi) / 2)).2 } with hs1
  have hstep : stepBrushChange s (some (si, ei)) = applyYEffect (applyZoomEffect s1) := by
    simp only [stepBrushChange, if_neg hE]
    rfl
  have hyp := applyYEffect_preserves (applyZoomEffect s1)
  have hzp := applyZoomEffect_preserves s1
  have hzb := applyZoomEffect_brush_some s1 (tAt s.rows lo, tAt s.rows hi) rfl hE
  have hidx1 : indexForT s.rows (tAt s.rows lo) = lo := indexForT_exact s.rows hstrict lo hlon
  have hidx2 : indexForT s.rows (tAt s.rows hi) = hi := indexForT_exact s.rows hstrict hi hhin
  have hbs : (stepBrushChange s (some (si, ei))).brushStartIndex = (lo : ℤ) := by
    rw [hstep, hyp.2.2.2.2.1, hzb.1]
    show ((min (indexForT s.rows (tAt s.rows lo)) (indexForT s.rows (tAt s.rows hi)) : ℕ) : ℤ)
      = (lo : ℤ)
    rw [hidx1, hidx2]
    congr 1
    rw [hlo, hhi]
    omega
  have hbe : (stepBrushChange s (some (si, ei))).brushEndIndex = (hi : ℤ) := by
    rw [hstep, hyp.2.2.2.2.2.1, hzb.2]
    show ((max (indexForT s.rows (tAt s.rows lo)) (indexForT s.rows (tAt s.rows hi)) : ℕ) : ℤ)
      = (hi : ℤ)
    rw [hidx1, hidx2]
    congr 1
    rw [hlo, hhi]
    omega
  refine ⟨hbs, hbe, ?_, ?_, ?_⟩
  · rw [hbs, hbe]
    have : lo ≤ hi := by rw [hlo, hhi]; omega
    exact_mod_cast this
  · rw [hstep, hyp.2.2.2.1, hzp.2.2.2.1]
  · rw [hstep, hyp.2.2.2.2.2.2.2.1, hzp.2.2.2.2.2.2.1]

theorem brushChange_normalizes_witness :
    (stepBrushChange fiveState (some (2, 0))).brushStartIndex =
      ((min (clampIdx fiveState.rows.length 2) (clampIdx fiveState.rows.length 0) : ℕ) : ℤ) ∧
    (stepBrushChange fiveState (some (2, 0))).brushEndIndex =
      ((max (clampIdx fiveState.rows.length 2) (clampIdx fiveState.rows.length 0) : ℕ) : ℤ) ∧
    (stepBrushChange fiveState (some (2, 0))).brushStartIndex ≤
      (stepBrushChange fiveState (some (2, 0))).brushEndIndex ∧
    (stepBrushChange fiveState (some (2, 0))).zoomDomain =
      some (tAt fiveState.rows
              (min (clampIdx fiveState.rows.length 2) (clampIdx fiveState.rows.length 0)),
            tAt fiveState.rows
              (max (clampIdx fiveState.rows.length 2) (clampIdx fiveState.rows.length 0))) ∧
    (stepBrushChange fiveState (some (2, 0))).hoverWindow =
      some (computeModeKgInWindow fiveState.rows fiveState.modeCache
        ((tAt fiveState.rows
            (min (clampIdx fiveState.rows.length 2) (clampIdx fiveState.rows.length 0)) +
          tAt fiveState.rows
            (max (clampIdx fiveState.rows.length 2) (clampIdx fiveState.rows.length 0))) / 2)).1 :=
  brushChange_normalizes fiveState 2 0 (by with_unfolding_all decide)
    (by with_unfolding_all decide)

/-! ### Reset zoom (C6) -/
lemma getLastD_eq_getD_last (rows : List DataPoint) (d : DataPoint) (hne : rows ≠ []) :
    rows.getLastD d = rows.getD (rows.length - 1) d := by
  induction rows generalizing d with
  | nil => exact absurd rfl hne
  | cons r rest ih =>
    cases rest with
    | nil => rfl
    | cons r2 rest2 =>
      rw [List.getLastD_cons, ih r (by simp)]
      have h1 : (r2 :: rest2).length - 1 < (r2 :: rest2).length := by simp
      have h2 : (r :: r2 :: rest2).length - 1 = ((r2 :: rest2).length - 1) + 1 := by
        simp
      rw [h2]
      rw [List.getD_eq_getElem _ _ h1]
      have h3 : ((r2 :: rest2).length - 1) + 1 < (r :: r2 :: rest2).length := by simp
      rw [List.getD_eq_getElem _ _ h3]
      rfl

lemma visibleRows_none (rows : List DataPoint)
    (hsort : List.Pairwise (fun a b => a.t ≤ b.t) rows) :
    visibleRows rows none = rows := by
  match rows with
  | [] => rfl
  | r :: rest =>
    simp only [visibleRows]
    rw [List.filter_eq_self]
    intro a ha
    have hsort' := hsort
    have h1 : (r :: rest).headI.t ≤ a.t := by
      rcases List.mem_cons.mp ha with rfl | hmem
      · exact le_refl _
      · exact (List.pairwise_cons.mp hsort').1 a hmem
    have h2 : a.t ≤ ((r :: rest).getLastD default).t := by
      obtain ⟨⟨i, hilt⟩, hget⟩ := List.mem_iff_get.mp ha
      have hat : a.t = tAt (r :: rest) i := by
        rw [← hget]
        unfold tAt
        rw [List.getD_eq_getElem _ _ hilt]
        rfl
      have hlast : ((r :: rest).getLastD default).t = tAt (r :: rest) ((r :: rest).length - 1) := by
        rw [getLastD_eq_getD_last _ _ (by simp)]
        rfl
      rw [hat, hlast]
      exact tAt_mono _ hsort' (by omega) (by simp)
    simp only [Bool.and_eq_true, decide_eq_true_eq]
    exact ⟨h1, h2⟩

lemma step_rows (s : ChartState) (e : ChartEvent) : (step s e).rows = s.rows := by
  obtain ⟨rows, ral, rar, zd, yd, ya, bs, be, hw, ht, mc⟩ := s
  cases e with
  | mouseDown label =>
    cases label with
    | none => rfl
    | some t => rfl
  | mouseMove label =>
    cases label with
    | none => rfl
    | some t =>
      show (stepMouseMove _ (some t)).rows = rows
      unfold stepMouseMove
      cases ral <;> rfl
  | mouseUp =>
    show (stepMouseUp _).rows = rows
    unfold stepMouseUp
    cases ral with
    | none => rfl
    | some l0 =>
      cases rar with
      | none => rfl
      | some r0 =>
        by_cases h : l0 ≠ r0
        · simp only [if_pos h]
          show (applyYEffect (applyZoomEffect _)).rows = rows
          rw [(applyYEffect_preserves _).1, (applyZoomEffect_preserves _).1]
        · simp only [if_neg h]
  | mouseLeave =>
    show (stepMouseUp _).rows = rows
    unfold stepMouseUp
    cases ral with
    | none => rfl
    | some l0 =>
      cases rar with
      | none => rfl
      | some r0 =>
        by_cases h : l0 ≠ r0
        · simp only [if_pos h]
          show (applyYEffect (applyZoomEffect _)).rows = rows
          rw [(applyYEffect_preserves _).1, (applyZoomEffect_preserves _).1]
        · simp only [if_neg h]
  | brushChange r =>
    show (stepBrushChange _ r).rows = rows
    unfold stepBrushChange
    split
    · rfl
    · rcases r with _ | ⟨si, ei⟩
      · rfl
      · rw [(applyYEffect_preserves _).1, (applyZoomEffect_preserves _).1]
  | resetZoom => rfl
  | fitToZoom =>
    show (stepFitToZoom _).rows = rows
    unfold stepFitToZoom
    split
    · rfl
    · rfl

lemma applyEvents_rows (s : ChartState) (evs : List ChartEvent) :
    (applyEvents s evs).rows = s.rows := by
  induction evs generalizing s with
  | nil => rfl
  | cons e rest ih =>
    show (applyEvents (step s e) rest).rows = s.rows
    rw [ih (step s e), step_rows]

lemma initState_rows (rows : List DataPoint) : (initState rows).rows = rows := by
  unfold initState
  rw [(applyYEffect_preserves _).1, (applyZoomEffect_preserves _).1]

lemma stepResetZoom_view (s : ChartState) (hne : s.rows ≠ []) :
    (stepResetZoom s).view =
      { zoomDomain := none, brushStart := 0, brushEnd := (s.rows.length : ℤ) - 1,
        yDomain := autofit s.rows, yAuto := true, dragAnchor := none } := by
  have hE : ¬ s.rows.isEmpty = true := by simpa using hne
  unfold stepResetZoom ChartState.view
  simp [hE]

lemma initState_view (rows : List DataPoint) (hne : rows ≠ [])
    (hsort : List.Pairwise (fun a b => a.t ≤ b.t) rows) :
    (initState rows).view =
      { zoomDomain := none, brushStart := 0, brushEnd := (rows.length : ℤ) - 1,
        yDomain := autofit rows, yAuto := true, dragAnchor := none } := by
  have hE : ¬ rows.isEmpty = true := by simpa using hne
  have hvE : ¬ (visibleRows rows none).isEmpty = true := by
    rw [visibleRows_none rows hsort]
    exact hE
  unfold initState
  unfold applyZoomEffect
  rw [if_neg hE]
  simp only []
  unfold applyYEffect
  simp only [if_neg hvE]
  rw [if_neg (by simp)]
  unfold ChartState.view
  simp [visibleRows_none rows hsort]

/-- **C6**: after any finite sequence of pointer, brush, reset and fit events
on a non-empty sorted series, pressing reset restores the spec's `ViewState`
exactly to the freshly-loaded state: zoom domain `null`, brush `[0, n-1]`,
auto Y re-enabled, Y domain re-fitted to the full series, drag anchor
cleared. -/
theorem resetZoom_restores (rows : List DataPoint) (evs : List ChartEvent)
    (hne : rows ≠ []) (hsort : List.Pairwise (fun a b => a.t ≤ b.t) rows) :
    (stepResetZoom (applyEvents (initState rows) evs)).view = (initState rows).view := by
  have hrows : (applyEvents (initState rows) evs).rows = rows := by
    rw [applyEvents_rows, initState_rows]
  rw [stepResetZoom_view _ (by rw [hrows]; exact hne),
      initState_view rows hne hsort, hrows]

/-- Witness for C6: a concrete zoom-drag, brush and fit sequence on a
two-sample series. -/
theorem resetZoom_restores_witness :
    (stepResetZoom (applyEvents (initState [⟨0, 10⟩, ⟨10, 11⟩])
        [ChartEvent.mouseDown (some 0), ChartEvent.mouseMove (some 8),
         ChartEvent.mouseUp, ChartEvent.brushChange (some (1, 0)),
         ChartEvent.fitToZoom])).view =
      (initState [⟨0, 10⟩, ⟨10, 11⟩]).view :=
  resetZoom_restores [⟨0, 10⟩, ⟨10, 11⟩] _ (by with_unfolding_all decide)
    (by with_unfolding_all decide)

end AutoScaleDash
